import Mathlib

/-!
Verification of the redo-log key-value store (`src/bin/concurrent.rs`).

The development has two layers:

* a sequential model of the on-disk journal: `Command` serialization
  (mirroring `serde_json::to_vec` for the two-variant enum), the
  newline-terminated record format written by the leader in
  `apply_command`, and `replay_log` (mirroring `BufReader::lines` +
  `serde_json::from_str` + `apply_command_to_memtable`);

* a small-step concurrency model of the commit pipeline in
  `Db::apply_command` (the `DbState::Pending` / `DbState::PendingLeader`
  protocol with one-shot batch notifications), over which the batching,
  ordering, durability and failure-atomicity claims are settled.
-/

/-- The `Command` enum of the source: `Set(String, String)` or `Delete(String)`. -/
inductive Command where
  | Set (k v : String)
  | Delete (k : String)
deriving DecidableEq, Repr

/-- Observational model of the `HashMap<String, String>` memtable:
a key is mapped to `some v` exactly when the hash map contains it. -/
def Memtable : Type := String → Option String

/-- The empty memtable (`HashMap::new()`). -/
def emptyMemtable : Memtable := fun _ => none

/-- `Db::apply_command_to_memtable`: `Set(k, v)` inserts (upsert),
`Delete(k)` removes the key if present.  Total, never errors. -/
def apply_command_to_memtable (m : Memtable) : Command → Memtable
  | .Set k v => fun q => if q = k then some v else m q
  | .Delete k => fun q => if q = k then none else m q

/-- `Db::get`: a direct read of the memtable. -/
def Db.get (m : Memtable) (k : String) : Option String := m k

/-! ## Record serialization (model of `serde_json::to_vec`) -/

/-- Lower-case hex digit, as emitted by `serde_json` in `\u00XX` escapes
(48 is the code of `0`, 87 + 10 the code of `a`). -/
def hexDigit (n : Nat) : Char :=
  if n < 10 then Char.ofNat (48 + n)
  else if n < 16 then Char.ofNat (87 + n)
  else '0'

/-- How `serde_json` escapes one character of a JSON string: quote and
backslash are escaped, the five short control escapes are used for
LF, CR, TAB, BS, FF, all other control characters get a `\u00XX` escape,
and every other character is emitted verbatim. -/
def escapeChar (c : Char) : List Char :=
  if c = '"' then ['\\', '"']
  else if c = '\\' then ['\\', '\\']
  else if c = '\n' then ['\\', 'n']
  else if c = '\r' then ['\\', 'r']
  else if c = '\t' then ['\\', 't']
  else if c = Char.ofNat 8 then ['\\', 'b']
  else if c = Char.ofNat 12 then ['\\', 'f']
  else if c.toNat < 32 then ['\\', 'u', '0', '0', hexDigit (c.toNat / 16), hexDigit (c.toNat % 16)]
  else [c]

/-- A JSON string literal: quote, escaped characters, quote. -/
def encodeJString (s : String) : List Char :=
  '"' :: s.data.flatMap escapeChar ++ ['"']

/-- The characters `{"Set":[` opening the externally-tagged `Set` variant. -/
def setTag : List Char := ['{', '"', 'S', 'e', 't', '"', ':', '[']

/-- The characters `{"Delete":` opening the externally-tagged `Delete` variant. -/
def deleteTag : List Char := ['{', '"', 'D', 'e', 'l', 'e', 't', 'e', '"', ':']

/-- `serde_json::to_vec` on a `Command`:
`Set(k, v)` becomes `{"Set":["k","v"]}`, `Delete(k)` becomes `{"Delete":"k"}`. -/
def encodeCommand : Command → List Char
  | .Set k v => setTag ++ encodeJString k ++ [','] ++ encodeJString v ++ [']', '}']
  | .Delete k => deleteTag ++ encodeJString k ++ ['}']

/-- One loop iteration of the leader's write loop (source lines 134-137):
append the serialized command and then a single `\n` byte. -/
def appendRecord (log : List Char) (c : Command) : List Char :=
  log ++ encodeCommand c ++ ['\n']

/-- The journal bytes written for a whole batch, in batch order. -/
def encodeBatch (ws : List Command) : List Char :=
  ws.flatMap fun c => encodeCommand c ++ ['\n']

/-! ## Record parsing (model of `serde_json::from_str` on one line) -/

/-- Value of a hex digit character, `none` for non-hex characters. -/
def hexVal (c : Char) : Option Nat :=
  let n := c.toNat
  if 48 ≤ n ∧ n ≤ 57 then some (n - 48)
  else if 97 ≤ n ∧ n ≤ 102 then some (n - 87)
  else if 65 ≤ n ∧ n ≤ 70 then some (n - 55)
  else none

/-- Value of a 4-digit hex escape. -/
def hex4 (a b c d : Char) : Option Nat := do
  let x ← hexVal a
  let y ← hexVal b
  let z ← hexVal c
  let w ← hexVal d
  pure ((((x * 16 + y) * 16 + z) * 16) + w)

/-- Decoding of a single-character escape after a backslash. -/
def unescapeChar (e : Char) : Option Char :=
  if e = '"' then some '"'
  else if e = '\\' then some '\\'
  else if e = '/' then some '/'
  else if e = 'n' then some '\n'
  else if e = 'r' then some '\r'
  else if e = 't' then some '\t'
  else if e = 'b' then some (Char.ofNat 8)
  else if e = 'f' then some (Char.ofNat 12)
  else none

/-- Body of a JSON string after the opening quote: returns the decoded
characters and the input remaining after the closing quote.  Raw control
characters and malformed or unterminated escapes are rejected, as in
`serde_json`. -/
def parseJStrBody : List Char → Option (List Char × List Char)
  | [] => none
  | c :: rest =>
    if c = '"' then some ([], rest)
    else if c = '\\' then
      match rest with
      | [] => none
      | e :: rest' =>
        if e = 'u' then
          match rest' with
          | a :: b :: x :: d :: rest'' =>
            match hex4 a b x d with
            | some n => (fun p => (Char.ofNat n :: p.1, p.2)) <$> parseJStrBody rest''
            | none => none
          | _ => none
        else
          match unescapeChar e with
          | some c' => (fun p => (c' :: p.1, p.2)) <$> parseJStrBody rest'
          | none => none
    else if c.toNat < 32 then none
    else (fun p => (c :: p.1, p.2)) <$> parseJStrBody rest

/-- A JSON string literal: an opening quote followed by a string body. -/
def parseJStr (l : List Char) : Option (List Char × List Char) :=
  match l with
  | '"' :: rest => parseJStrBody rest
  | _ => none

/-- Consume an expected sequence of leading characters. -/
def dropInit : List Char → List Char → Option (List Char)
  | [], l => some l
  | _ :: _, [] => none
  | c :: p, x :: l => if x = c then dropInit p l else none

/-- `serde_json::from_str::<Command>` on one line: accepts exactly the
canonical forms `{"Set":["k","v"]}` and `{"Delete":"k"}` with no
trailing input. -/
def parseCommand (l : List Char) : Option Command :=
  match dropInit setTag l with
  | some r1 =>
    match parseJStr r1 with
    | some (k, r2) =>
      match dropInit [','] r2 with
      | some r3 =>
        match parseJStr r3 with
        | some (v, r4) =>
          match dropInit [']', '}'] r4 with
          | some [] => some (Command.Set (String.mk k) (String.mk v))
          | _ => none
        | none => none
      | none => none
    | none => none
  | none =>
    match dropInit deleteTag l with
    | some r1 =>
      match parseJStr r1 with
      | some (k, r2) =>
        match dropInit ['}'] r2 with
        | some [] => some (Command.Delete (String.mk k))
        | _ => none
      | none => none
    | none => none

/-! ## Line splitting (model of `BufReader::lines`) -/

/-- Drop one trailing carriage return, as `BufRead::lines` does for CRLF. -/
def dropLastCR (l : List Char) : List Char :=
  match l.getLast? with
  | some c => if c = '\r' then l.dropLast else l
  | none => l

/-- Worker for `splitLines`; `cur` is the reversed current line. -/
def splitLinesAux : List Char → List Char → List (List Char)
  | cur, [] => [dropLastCR cur.reverse]
  | cur, c :: rest =>
    if c = '\n' then
      match rest with
      | [] => [dropLastCR cur.reverse]
      | _ :: _ => dropLastCR cur.reverse :: splitLinesAux [] rest
    else splitLinesAux (c :: cur) rest

/-- `BufRead::lines` semantics: split on `\n`, no trailing empty line for a
file ending in `\n`, a final line without a terminator is still yielded,
and a trailing `\r` is stripped from each line. -/
def splitLines : List Char → List (List Char)
  | [] => []
  | c :: rest => splitLinesAux [] (c :: rest)

/-! ## Replay and startup (source `Db::replay_log`, `Db::new`) -/

/-- One iteration of the replay loop: parse the line and apply it; a parse
failure aborts the replay (the `?` on `serde_json::from_str`). -/
def replayStep (m : Memtable) (line : List Char) : Option Memtable :=
  (parseCommand line).map fun c => apply_command_to_memtable m c

/-- `Db::replay_log`: read the file line by line, parse each line as a
`Command` and fold it into an initially empty memtable.  Any line that
fails to parse makes the whole replay fail (the `?` on `from_str`). -/
def replay_log (file : List Char) : Option Memtable :=
  (splitLines file).foldlM replayStep emptyMemtable

/-- `Db::new`: open the log file in create-append mode (an absent file
becomes an empty one, an existing file is kept as is) and replay it.
Returns the log content together with the rebuilt memtable. -/
def dbNew (disk : Option (List Char)) : Option (List Char × Memtable) :=
  let content := disk.getD []
  match replay_log content with
  | some m => some (content, m)
  | none => none

/-- The log file produced by a sequence of successful `set`/`delete`
calls starting from an empty log: each call appends its one record. -/
def logOf (cs : List Command) : List Char :=
  cs.foldl appendRecord []

/-- The memtable obtained by applying a sequence of commands in order to
the empty memtable. -/
def stateOf (cs : List Command) : Memtable :=
  cs.foldl apply_command_to_memtable emptyMemtable

/-! ## Roundtrip lemmas for the record format -/

theorem hexVal_hexDigit (n : Nat) (h : n < 16) : hexVal (hexDigit n) = some n := by
  interval_cases n <;> rfl

theorem hex4_eval (n : Nat) (h : n < 256) :
    hex4 '0' '0' (hexDigit (n / 16)) (hexDigit (n % 16)) = some n := by
  have h1 : n / 16 < 16 := by omega
  have h2 : n % 16 < 16 := by omega
  simp [hex4, hexVal_hexDigit, h1, h2, show hexVal '0' = some 0 from rfl]
  omega

theorem parseJStrBody_round (s rest : List Char) :
    parseJStrBody (s.flatMap escapeChar ++ '"' :: rest) = some (s, rest) := by
  induction s with
  | nil =>
    rw [List.flatMap_nil, List.nil_append, parseJStrBody.eq_def]
    simp only [reduceIte]
  | cons c cs ih =>
    rw [List.flatMap_cons, List.append_assoc]
    by_cases h1 : c = '"'
    · subst h1
      rw [show escapeChar '"' = ['\\', '"'] from rfl]
      simp only [List.cons_append, List.nil_append]
      rw [parseJStrBody.eq_def]
      simp [unescapeChar, ih]
    · by_cases h2 : c = '\\'
      · subst h2
        rw [show escapeChar '\\' = ['\\', '\\'] from rfl]
        simp only [List.cons_append, List.nil_append]
        rw [parseJStrBody.eq_def]
        simp [unescapeChar, ih]
      · by_cases h3 : c = '\n'
        · subst h3
          rw [show escapeChar '\n' = ['\\', 'n'] from rfl]
          simp only [List.cons_append, List.nil_append]
          rw [parseJStrBody.eq_def]
          simp [unescapeChar, ih]
        · by_cases h4 : c = '\r'
          · subst h4
            rw [show escapeChar '\r' = ['\\', 'r'] from rfl]
            simp only [List.cons_append, List.nil_append]
            rw [parseJStrBody.eq_def]
            simp [unescapeChar, ih]
          · by_cases h5 : c = '\t'
            · subst h5
              rw [show escapeChar '\t' = ['\\', 't'] from rfl]
              simp only [List.cons_append, List.nil_append]
              rw [parseJStrBody.eq_def]
              simp [unescapeChar, ih]
            · by_cases h6 : c = Char.ofNat 8
              · subst h6
                rw [show escapeChar (Char.ofNat 8) = ['\\', 'b'] from rfl]
                simp only [List.cons_append, List.nil_append]
                rw [parseJStrBody.eq_def]
                simp [unescapeChar, ih]
              · by_cases h7 : c = Char.ofNat 12
                · subst h7
                  rw [show escapeChar (Char.ofNat 12) = ['\\', 'f'] from rfl]
                  simp only [List.cons_append, List.nil_append]
                  rw [parseJStrBody.eq_def]
                  simp [unescapeChar, ih]
                · by_cases h8 : c.toNat < 32
                  · rw [show escapeChar c =
                        ['\\', 'u', '0', '0', hexDigit (c.toNat / 16), hexDigit (c.toNat % 16)] from by
                      simp [escapeChar, h1, h2, h3, h4, h5, h6, h7, h8]]
                    simp only [List.cons_append, List.nil_append]
                    rw [parseJStrBody.eq_def]
                    simp only [reduceIte]
                    rw [hex4_eval c.toNat (by omega)]
                    simp [ih, Char.ofNat_toNat]
                  · rw [show escapeChar c = [c] from by
                      simp [escapeChar, h1, h2, h3, h4, h5, h6, h7, h8]]
                    simp only [List.cons_append, List.nil_append]
                    rw [parseJStrBody.eq_def]
                    simp only [if_neg h1, if_neg h2, if_neg h8]
                    rw [ih]
                    rfl

theorem parseJStr_round (s : String) (rest : List Char) :
    parseJStr (encodeJString s ++ rest) = some (s.data, rest) := by
  show parseJStr ('"' :: s.data.flatMap escapeChar ++ ['"'] ++ rest) = _
  rw [List.append_assoc]
  show parseJStrBody (s.data.flatMap escapeChar ++ '"' :: rest) = _
  exact parseJStrBody_round s.data rest

theorem dropInit_self (p r : List Char) : dropInit p (p ++ r) = some r := by
  induction p with
  | nil => rfl
  | cons c p ih => simp [dropInit, ih]

/-- Parsing inverts serialization on every `Command`. -/
theorem parseCommand_encode (c : Command) : parseCommand (encodeCommand c) = some c := by
  cases c with
  | Set k v =>
    show parseCommand ((((setTag ++ encodeJString k) ++ [',']) ++ encodeJString v) ++ [']', '}']) = _
    simp only [List.append_assoc]
    rw [parseCommand, dropInit_self]
    dsimp only
    rw [parseJStr_round]
    dsimp only
    rw [dropInit_self]
    dsimp only
    rw [parseJStr_round]
    dsimp only
    rw [show dropInit [']', '}'] [']', '}'] = some [] from rfl]
  | Delete k =>
    show parseCommand ((deleteTag ++ encodeJString k) ++ ['}']) = _
    simp only [List.append_assoc]
    rw [parseCommand]
    rw [show dropInit setTag (deleteTag ++ (encodeJString k ++ ['}'])) = none from by
      rw [show deleteTag ++ (encodeJString k ++ ['}']) =
        '{' :: '"' :: 'D' :: ('e' :: 'l' :: 'e' :: 't' :: 'e' :: '"' :: ':' :: (encodeJString k ++ ['}'])) from rfl]
      rfl]
    rw [dropInit_self]
    dsimp only
    rw [parseJStr_round]
    dsimp only
    rw [show dropInit ['}'] ['}'] = some [] from rfl]

/-! ## Records are single lines -/

theorem hexDigit_ne_newline (n : Nat) : hexDigit n ≠ '\n' := by
  unfold hexDigit
  rcases Nat.lt_or_ge n 16 with h | h
  · interval_cases n <;> decide
  · rw [if_neg (by omega), if_neg (by omega)]
    decide

theorem newline_not_mem_escapeChar (c : Char) : '\n' ∉ escapeChar c := by
  unfold escapeChar
  by_cases h1 : c = '"'
  · simp [h1]
  by_cases h2 : c = '\\'
  · simp [h1, h2]
  by_cases h3 : c = '\n'
  · simp [h1, h2, h3]
  by_cases h4 : c = '\r'
  · simp [h1, h2, h3, h4]
  by_cases h5 : c = '\t'
  · simp [h1, h2, h3, h4, h5]
  by_cases h6 : c = Char.ofNat 8
  · simp [h1, h2, h3, h4, h5, h6]
  by_cases h7 : c = Char.ofNat 12
  · simp [h1, h2, h3, h4, h5, h6, h7]
  by_cases h8 : c.toNat < 32
  · simp only [h1, h2, h3, h4, h5, h6, h7, h8, if_neg, if_pos, if_false, if_true]
    intro hmem
    simp only [List.mem_cons, List.not_mem_nil] at hmem
    rcases hmem with h | h | h | h | h | h | h <;>
      first
        | exact absurd h.symm (by decide)
        | exact absurd h.symm (hexDigit_ne_newline _)
        | exact h
  · simp only [h1, h2, h3, h4, h5, h6, h7, h8, if_neg, if_false]
    intro hmem
    simp only [List.mem_singleton] at hmem
    exact h3 hmem.symm

theorem newline_not_mem_encodeJString (s : String) : '\n' ∉ encodeJString s := by
  unfold encodeJString
  intro hmem
  rcases List.mem_cons.mp hmem with h | h
  · exact absurd h (by decide)
  rcases List.mem_append.mp h with h | h
  · rcases List.mem_flatMap.mp h with ⟨a, _, ha⟩
    exact newline_not_mem_escapeChar a ha
  · simp only [List.mem_singleton] at h
    exact absurd h (by decide)

/-- A serialized record never contains a raw newline byte. -/
theorem newline_not_mem_encodeCommand (c : Command) : '\n' ∉ encodeCommand c := by
  cases c with
  | Set k v =>
    show '\n' ∉ setTag ++ encodeJString k ++ [','] ++ encodeJString v ++ [']', '}']
    intro hmem
    simp only [List.mem_append] at hmem
    rcases hmem with (((h | h) | h) | h) | h
    · exact absurd h (by decide)
    · exact newline_not_mem_encodeJString k h
    · exact absurd h (by decide)
    · exact newline_not_mem_encodeJString v h
    · exact absurd h (by decide)
  | Delete k =>
    show '\n' ∉ deleteTag ++ encodeJString k ++ ['}']
    intro hmem
    simp only [List.mem_append] at hmem
    rcases hmem with (h | h) | h
    · exact absurd h (by decide)
    · exact newline_not_mem_encodeJString k h
    · exact absurd h (by decide)

theorem encodeCommand_ne_nil (c : Command) : encodeCommand c ≠ [] := by
  cases c <;> simp [encodeCommand, setTag, deleteTag]

theorem encodeCommand_getLast (c : Command) : (encodeCommand c).getLast? = some '}' := by
  cases c with
  | Set k v =>
    show (setTag ++ encodeJString k ++ [','] ++ encodeJString v ++ [']', '}']).getLast? = _
    rw [show (setTag ++ encodeJString k ++ [','] ++ encodeJString v ++ [']', '}']) =
      (setTag ++ encodeJString k ++ [','] ++ encodeJString v ++ [']']) ++ ['}'] by
        simp [List.append_assoc]]
    exact List.getLast?_concat _
  | Delete k =>
    show (deleteTag ++ encodeJString k ++ ['}']).getLast? = _
    rw [show (deleteTag ++ encodeJString k ++ ['}']) =
      (deleteTag ++ encodeJString k) ++ ['}'] by simp [List.append_assoc]]
    exact List.getLast?_concat _

theorem dropLastCR_encodeCommand (c : Command) :
    dropLastCR (encodeCommand c) = encodeCommand c := by
  unfold dropLastCR
  rw [encodeCommand_getLast]
  dsimp only
  rw [if_neg (by decide)]

/-! ## Line-splitting lemmas -/

theorem splitLinesAux_no_newline (r : List Char) :
    ∀ cur, '\n' ∉ r → splitLinesAux cur r = [dropLastCR (cur.reverse ++ r)] := by
  induction r with
  | nil => intro cur _; simp [splitLinesAux]
  | cons c r ih =>
    intro cur h
    have hc : c ≠ '\n' := fun hc => h (hc ▸ List.mem_cons_self c r)
    have hr : '\n' ∉ r := fun hr => h (List.mem_cons_of_mem c hr)
    rw [splitLinesAux.eq_def]
    dsimp only
    rw [if_neg hc, ih (c :: cur) hr]
    simp

theorem splitLinesAux_term (r : List Char) :
    ∀ cur, '\n' ∉ r → splitLinesAux cur (r ++ ['\n']) = [dropLastCR (cur.reverse ++ r)] := by
  induction r with
  | nil =>
    intro cur _
    show splitLinesAux cur ['\n'] = _
    rw [splitLinesAux.eq_def]
    dsimp only
    simp
  | cons c r ih =>
    intro cur h
    have hc : c ≠ '\n' := fun hc => h (hc ▸ List.mem_cons_self c r)
    have hr : '\n' ∉ r := fun hr => h (List.mem_cons_of_mem c hr)
    rw [List.cons_append, splitLinesAux.eq_def]
    dsimp only
    rw [if_neg hc, ih (c :: cur) hr]
    simp

theorem splitLinesAux_mid (r : List Char) :
    ∀ cur rest, '\n' ∉ r → rest ≠ [] →
      splitLinesAux cur (r ++ '\n' :: rest) =
        dropLastCR (cur.reverse ++ r) :: splitLinesAux [] rest := by
  induction r with
  | nil =>
    intro cur rest _ hrest
    show splitLinesAux cur ('\n' :: rest) = _
    cases rest with
    | nil => exact absurd rfl hrest
    | cons x xs =>
      rw [splitLinesAux.eq_def]
      dsimp only
      simp
  | cons c r ih =>
    intro cur rest h hrest
    have hc : c ≠ '\n' := fun hc => h (hc ▸ List.mem_cons_self c r)
    have hr : '\n' ∉ r := fun hr => h (List.mem_cons_of_mem c hr)
    rw [List.cons_append, splitLinesAux.eq_def]
    dsimp only
    rw [if_neg hc, ih (c :: cur) rest hr hrest]
    simp

theorem encodeBatch_cons (c : Command) (cs : List Command) :
    encodeBatch (c :: cs) = encodeCommand c ++ '\n' :: encodeBatch cs := by
  show (encodeCommand c ++ ['\n']) ++ encodeBatch cs = _
  simp [List.append_assoc]

theorem encodeBatch_ne_nil (c : Command) (cs : List Command) :
    encodeBatch (c :: cs) ≠ [] := by
  rw [encodeBatch_cons]
  intro h
  rcases List.append_eq_nil.mp h with ⟨h1, _⟩
  exact encodeCommand_ne_nil c h1

theorem splitLines_ne_nil_input (l : List Char) (h : l ≠ []) :
    splitLines l = splitLinesAux [] l := by
  cases l with
  | nil => exact absurd rfl h
  | cons c rest => rfl

/-- Splitting a well-formed log into lines recovers exactly the records. -/
theorem splitLines_encodeBatch (cs : List Command) :
    splitLines (encodeBatch cs) = cs.map encodeCommand := by
  induction cs with
  | nil => rfl
  | cons c cs ih =>
    rw [splitLines_ne_nil_input _ (encodeBatch_ne_nil c cs), encodeBatch_cons]
    cases cs with
    | nil =>
      show splitLinesAux [] (encodeCommand c ++ '\n' :: ([] : List Char)) = _
      rw [show encodeCommand c ++ '\n' :: ([] : List Char) = encodeCommand c ++ ['\n'] from rfl]
      rw [splitLinesAux_term _ _ (newline_not_mem_encodeCommand c)]
      simp [dropLastCR_encodeCommand]
    | cons c' cs' =>
      rw [splitLinesAux_mid _ _ _ (newline_not_mem_encodeCommand c) (encodeBatch_ne_nil c' cs')]
      rw [← splitLines_ne_nil_input _ (encodeBatch_ne_nil c' cs'), ih]
      simp [dropLastCR_encodeCommand]

/-- Splitting a well-formed log followed by a partial trailing line. -/
theorem splitLines_encodeBatch_tail (cs : List Command) (tail : List Char)
    (h1 : tail ≠ []) (h2 : '\n' ∉ tail) :
    splitLines (encodeBatch cs ++ tail) = cs.map encodeCommand ++ [dropLastCR tail] := by
  induction cs with
  | nil =>
    show splitLines ([] ++ tail) = _
    rw [List.nil_append, splitLines_ne_nil_input _ h1, splitLinesAux_no_newline _ _ h2]
    simp
  | cons c cs ih =>
    rw [encodeBatch_cons]
    have hne : encodeBatch cs ++ tail ≠ [] := by
      intro h
      exact h1 (List.append_eq_nil.mp h).2
    rw [List.append_assoc, List.cons_append]
    rw [splitLines_ne_nil_input _ (by
      intro h
      rcases List.append_eq_nil.mp h with ⟨hl, _⟩
      exact encodeCommand_ne_nil c hl)]
    rw [splitLinesAux_mid _ _ _ (newline_not_mem_encodeCommand c) hne]
    rw [← splitLines_ne_nil_input _ hne, ih]
    simp [dropLastCR_encodeCommand]

/-! ## Replay lemmas -/

theorem foldl_appendRecord (cs : List Command) :
    ∀ l, cs.foldl appendRecord l = l ++ encodeBatch cs := by
  induction cs with
  | nil => intro l; simp [encodeBatch]
  | cons c cs ih =>
    intro l
    rw [List.foldl_cons, ih, encodeBatch_cons]
    simp [appendRecord, List.append_assoc]

theorem logOf_eq_encodeBatch (cs : List Command) : logOf cs = encodeBatch cs := by
  rw [logOf, foldl_appendRecord, List.nil_append]

theorem replay_records (cs : List Command) :
    ∀ m, (cs.map encodeCommand).foldlM replayStep m =
      some (cs.foldl apply_command_to_memtable m) := by
  induction cs with
  | nil => intro m; rfl
  | cons c cs ih =>
    intro m
    rw [List.map_cons, List.foldlM_cons]
    rw [show replayStep m (encodeCommand c) =
        some (apply_command_to_memtable m c) by
      rw [replayStep, parseCommand_encode]; rfl]
    rw [List.foldl_cons]
    exact ih (apply_command_to_memtable m c)

theorem replay_records_fail (cs : List Command) (bad : List Char)
    (hbad : parseCommand bad = none) :
    ∀ m, (cs.map encodeCommand ++ [bad]).foldlM replayStep m = none := by
  induction cs with
  | nil =>
    intro m
    rw [List.map_nil, List.nil_append, List.foldlM_cons]
    rw [show replayStep m bad = none by rw [replayStep, hbad]; rfl]
    rfl
  | cons c cs ih =>
    intro m
    rw [List.map_cons, List.cons_append, List.foldlM_cons]
    rw [show replayStep m (encodeCommand c) =
        some (apply_command_to_memtable m c) by
      rw [replayStep, parseCommand_encode]; rfl]
    exact ih (apply_command_to_memtable m c)

/-! ## Claim theorems over the sequential journal model -/

/-- C3: for every finite sequence of successful `set`/`delete` calls starting
from an empty log, replaying the resulting log file into a fresh index (as
done by reopening the store) produces exactly the mapping obtained by
applying those commands, in call order, to an initially empty mapping. -/
theorem c3_replay_recovers_state (cs : List Command) :
    replay_log (logOf cs) = some (stateOf cs) ∧
    dbNew (some (logOf cs)) = some (logOf cs, stateOf cs) := by
  have h : replay_log (logOf cs) = some (stateOf cs) := by
    rw [replay_log, logOf_eq_encodeBatch, splitLines_encodeBatch]
    exact replay_records cs emptyMemtable
  refine ⟨h, ?_⟩
  simp only [dbNew, Option.getD_some, h]

/-- C10: opening a store at a path where no log file exists, or where the
log file is empty, succeeds with an empty index: `get` returns `none` for
every key before any write. -/
theorem c10_open_fresh_empty :
    dbNew none = some ([], emptyMemtable) ∧
    dbNew (some []) = some ([], emptyMemtable) ∧
    ∀ k, Db.get emptyMemtable k = none :=
  ⟨rfl, rfl, fun _ => rfl⟩

/-- C8: applying a command to the index never errors and has upsert /
remove-if-present semantics; deleting the same key twice equals deleting it
once. -/
theorem c8_apply_semantics (m : Memtable) (k v q : String) (hq : q ≠ k) :
    apply_command_to_memtable m (Command.Set k v) k = some v ∧
    apply_command_to_memtable m (Command.Set k v) q = m q ∧
    apply_command_to_memtable m (Command.Delete k) k = none ∧
    apply_command_to_memtable m (Command.Delete k) q = m q ∧
    apply_command_to_memtable (apply_command_to_memtable m (Command.Delete k))
      (Command.Delete k) = apply_command_to_memtable m (Command.Delete k) := by
  refine ⟨?_, ?_, ?_, ?_, ?_⟩
  · simp [apply_command_to_memtable]
  · simp [apply_command_to_memtable, hq]
  · simp [apply_command_to_memtable]
  · simp [apply_command_to_memtable, hq]
  · funext q'
    by_cases h : q' = k <;> simp [apply_command_to_memtable, h]

theorem c8_apply_semantics_witness :
    apply_command_to_memtable emptyMemtable (Command.Set "a" "b") "a" = some "b" ∧
    apply_command_to_memtable emptyMemtable (Command.Set "a" "b") "c" = emptyMemtable "c" ∧
    apply_command_to_memtable emptyMemtable (Command.Delete "a") "a" = none ∧
    apply_command_to_memtable emptyMemtable (Command.Delete "a") "c" = emptyMemtable "c" ∧
    apply_command_to_memtable (apply_command_to_memtable emptyMemtable (Command.Delete "a"))
      (Command.Delete "a") = apply_command_to_memtable emptyMemtable (Command.Delete "a") :=
  c8_apply_semantics emptyMemtable "a" "b" "c" (by decide)

/-- C9: for every command, including those whose key or value contains
newline or other control characters, the serialized record is a single
line: the serialization contains no raw newline byte, the written record is
the serialization plus exactly one appended newline, line-splitting
recovers it as one line, and parsing returns the original command. -/
theorem c9_record_single_line (c : Command) (log : List Char) :
    '\n' ∉ encodeCommand c ∧
    appendRecord log c = log ++ encodeCommand c ++ ['\n'] ∧
    splitLines (appendRecord [] c) = [encodeCommand c] ∧
    parseCommand (encodeCommand c) = some c := by
  refine ⟨newline_not_mem_encodeCommand c, rfl, ?_, parseCommand_encode c⟩
  show splitLines ([] ++ encodeCommand c ++ ['\n']) = _
  rw [List.nil_append]
  rw [show encodeCommand c ++ ['\n'] = encodeBatch [c] by simp [encodeBatch]]
  rw [splitLines_encodeBatch]
  rfl

/-- C2 fails on the code: a log whose final record is truncated mid-record
makes `replay_log` fail instead of succeeding with the state of the
preceding complete records.  Here the log holds one complete record
`Set("foo","bar")` followed by the truncated tail bytes of a next record. -/
theorem c2_counterexample :
    replay_log (logOf [Command.Set "foo" "bar"] ++ ['{', '"', 'S']) = none ∧
    replay_log (logOf [Command.Set "foo" "bar"] ++ ['{', '"', 'S']) ≠
      some (stateOf [Command.Set "foo" "bar"]) := by
  refine ⟨rfl, ?_⟩
  rw [show replay_log (logOf [Command.Set "foo" "bar"] ++ ['{', '"', 'S']) = none from rfl]
  exact fun h => Option.noConfusion h

/-- C2 (amended): replay does not tolerate a truncated trailing record.
For every log consisting of complete records followed by a nonempty final
line that does not parse as a `Command`, `replay_log` fails (returns an
error) instead of recovering the state of the preceding records. -/
theorem c2_amended_replay_fails (cs : List Command) (tail : List Char)
    (h1 : tail ≠ []) (h2 : '\n' ∉ tail)
    (h3 : parseCommand (dropLastCR tail) = none) :
    replay_log (logOf cs ++ tail) = none := by
  rw [replay_log, logOf_eq_encodeBatch, splitLines_encodeBatch_tail cs tail h1 h2]
  exact replay_records_fail cs (dropLastCR tail) h3 emptyMemtable

theorem c2_amended_replay_fails_witness :
    replay_log (logOf [Command.Delete "k"] ++ ['{', '"', 'D']) = none :=
  c2_amended_replay_fails [Command.Delete "k"] ['{', '"', 'D']
    (by decide) (by decide) (by rfl)

/-! ## Small-step model of the commit pipeline (`Db::apply_command`)

Threads are identified by natural numbers, batch notifications
(`Arc<(Mutex<bool>, Condvar)>` one-shot signals) by natural-number ids
allocated in order.  Every mutation of the shared `DbState` happens under
the `state` mutex in the source, so each lock-protected region is one
atomic step.  The leader's I/O (the write loop and `sync_all`) is split
into separate steps so that mutual exclusion of the physical journal
write is a proved property of the signal protocol, not of the model's
atomicity. -/

/-- The source's `DbState`: `Pending` holds the previous batch's
notification, `PendingLeader` holds the forming batch and its
notification. -/
inductive DbSt where
  | pending (p : Nat)
  | pendingLeader (ws : List Command) (s : Nat)
deriving DecidableEq, Repr

/-- Control state of one thread inside `apply_command`.
`leaderWait p s`: became leader of the batch with signal `s`, waiting on
the previous batch's signal `p` (source line 119).
`leaderWrite s ws`: woke up, swapped the state back to `Pending` and took
the accumulated batch `ws` (lines 121-133); about to run the write loop.
`leaderSync s ws`: write loop done, about to `sync_all` (line 138).
`leaderApply s ws`: sync succeeded, about to apply the batch to the
memtable (lines 140-143).
`leaderResolve s`: applied, about to set the notification and wake
everyone (lines 145-146).
`followerWait s`: pushed its command into the forming batch, waiting on
its signal (lines 148-158).
`retOk s` / `retErr s`: `apply_command` returned for a command of batch
`s`, with `Ok` or with the propagated I/O error. -/
inductive TState where
  | idle
  | leaderWait (p s : Nat)
  | leaderWrite (s : Nat) (ws : List Command)
  | leaderSync (s : Nat) (ws : List Command)
  | leaderApply (s : Nat) (ws : List Command)
  | leaderResolve (s : Nat)
  | followerWait (s : Nat)
  | retOk (s : Nat)
  | retErr (s : Nat)
deriving DecidableEq, Repr

/-- The signal id of the batch a thread is doing physical journal I/O or
index application for, if any (the leader's steps e-f). -/
def TState.ioSig : TState → Option Nat
  | .leaderWrite s _ => some s
  | .leaderSync s _ => some s
  | .leaderApply s _ => some s
  | .leaderResolve s => some s
  | _ => none

/-- Pointwise update of a function out of `Nat`. -/
def upd {α : Type} (f : Nat → α) (i : Nat) (a : α) : Nat → α :=
  fun j => if j = i then a else f j

/-- Global state of the model: the shared `DbState`, the resolved-bit of
every allocated signal, the next fresh signal id, the journal file bytes,
the memtable, and all thread states.  The last four fields are history
variables recording, per batch signal: the commands submitted to the
batch in order, whether its `sync_all` succeeded, whether it was applied
to the memtable, and whether its append/sync failed. -/
structure Sys where
  dbState : DbSt
  signals : Nat → Bool
  nextSig : Nat
  log : List Char
  memtable : Memtable
  tstate : Nat → TState
  submitted : Nat → List Command
  synced : Nat → Bool
  applied : Nat → Bool
  failed : Nat → Bool

/-- Step labels: which thread did what, for which batch signal. -/
inductive Ev where
  | elect (t : Nat) (c : Command) (p s : Nat)
  | join (t : Nat) (c : Command) (s : Nat)
  | wake (t s : Nat)
  | writeOk (t s : Nat)
  | writeFail (t s : Nat)
  | syncOk (t s : Nat)
  | syncFail (t s : Nat)
  | applyBatch (t s : Nat)
  | resolve (t s : Nat)
  | followerRet (t s : Nat)
deriving DecidableEq, Repr

/-- One step of the system.  Each constructor corresponds to one
lock-protected region or one I/O call of `Db::apply_command`:

* `elect`: lines 102-119a — under the state lock, a caller finds
  `Pending`, installs `PendingLeader` with its own command and a fresh
  notification, and remembers the previous batch's notification.
* `join`: lines 148-158a — a caller finds `PendingLeader`, pushes its
  command onto `writes` and will wait on the batch notification.
* `wake`: lines 119-133 — the leader observes the previous batch's
  notification set, re-locks the state, swaps in `Pending` carrying its
  own (unresolved) notification, and takes the accumulated writes.
* `writeOk` / `writeFail`: lines 134-137 — the write loop appends every
  record, or fails partway leaving an arbitrary prefix of the batch's
  bytes in the file and returning the error (`?`).
* `syncOk` / `syncFail`: line 138 — `sync_all` succeeds or returns the
  error (`?`).
* `applyBatch`: lines 140-143 — apply the whole batch to the memtable in
  order, under the memtable lock.
* `resolve`: lines 145-146 — set the notification under its mutex and
  `notify_all`; the leader's call returns `Ok`.
* `followerRet`: lines 92-97 — a follower's `wait_for` sees the
  notification set and `apply_command` returns `Ok(())`.

On `writeFail`/`syncFail` the leader returns the error without setting the
notification — exactly as the source does. -/
inductive Step : Sys → Ev → Sys → Prop where
  | elect (σ : Sys) (t : Nat) (c : Command) (p : Nat)
      (ht : σ.tstate t = .idle) (hdb : σ.dbState = .pending p) :
      Step σ (.elect t c p σ.nextSig)
        { σ with
          dbState := .pendingLeader [c] σ.nextSig
          nextSig := σ.nextSig + 1
          tstate := upd σ.tstate t (.leaderWait p σ.nextSig)
          submitted := upd σ.submitted σ.nextSig [c] }
  | join (σ : Sys) (t : Nat) (c : Command) (ws : List Command) (s : Nat)
      (ht : σ.tstate t = .idle) (hdb : σ.dbState = .pendingLeader ws s) :
      Step σ (.join t c s)
        { σ with
          dbState := .pendingLeader (ws ++ [c]) s
          tstate := upd σ.tstate t (.followerWait s)
          submitted := upd σ.submitted s (σ.submitted s ++ [c]) }
  | wake (σ : Sys) (t p s : Nat) (ws : List Command)
      (ht : σ.tstate t = .leaderWait p s)
      (hsig : σ.signals p = true)
      (hdb : σ.dbState = .pendingLeader ws s) :
      Step σ (.wake t s)
        { σ with
          dbState := .pending s
          tstate := upd σ.tstate t (.leaderWrite s ws) }
  | writeOk (σ : Sys) (t s : Nat) (ws : List Command)
      (ht : σ.tstate t = .leaderWrite s ws) :
      Step σ (.writeOk t s)
        { σ with
          log := σ.log ++ encodeBatch ws
          tstate := upd σ.tstate t (.leaderSync s ws) }
  | writeFail (σ : Sys) (t s : Nat) (ws : List Command) (pre : List Char)
      (ht : σ.tstate t = .leaderWrite s ws)
      (hpre : ∃ rest, pre ++ rest = encodeBatch ws) :
      Step σ (.writeFail t s)
        { σ with
          log := σ.log ++ pre
          tstate := upd σ.tstate t (.retErr s)
          failed := upd σ.failed s true }
  | syncOk (σ : Sys) (t s : Nat) (ws : List Command)
      (ht : σ.tstate t = .leaderSync s ws) :
      Step σ (.syncOk t s)
        { σ with
          tstate := upd σ.tstate t (.leaderApply s ws)
          synced := upd σ.synced s true }
  | syncFail (σ : Sys) (t s : Nat) (ws : List Command)
      (ht : σ.tstate t = .leaderSync s ws) :
      Step σ (.syncFail t s)
        { σ with
          tstate := upd σ.tstate t (.retErr s)
          failed := upd σ.failed s true }
  | applyBatch (σ : Sys) (t s : Nat) (ws : List Command)
      (ht : σ.tstate t = .leaderApply s ws) :
      Step σ (.applyBatch t s)
        { σ with
          memtable := ws.foldl apply_command_to_memtable σ.memtable
          tstate := upd σ.tstate t (.leaderResolve s)
          applied := upd σ.applied s true }
  | resolve (σ : Sys) (t s : Nat)
      (ht : σ.tstate t = .leaderResolve s) :
      Step σ (.resolve t s)
        { σ with
          signals := upd σ.signals s true
          tstate := upd σ.tstate t (.retOk s) }
  | followerRet (σ : Sys) (t s : Nat)
      (ht : σ.tstate t = .followerWait s)
      (hsig : σ.signals s = true) :
      Step σ (.followerRet t s)
        { σ with tstate := upd σ.tstate t (.retOk s) }

/-- The state right after `Db::new`: `DbState::Pending` with an
already-set notification (id 0), empty journal, empty memtable, all
threads outside `apply_command`.  Signal 0 is recorded as synced because
`Db::new` itself calls `sync_all` before handing out the database. -/
def init : Sys where
  dbState := .pending 0
  signals := fun s => s == 0
  nextSig := 1
  log := []
  memtable := emptyMemtable
  tstate := fun _ => .idle
  submitted := fun _ => []
  synced := fun s => s == 0
  applied := fun _ => false
  failed := fun _ => false

/-- Zero or more steps. -/
inductive ReachableFrom : Sys → Sys → Prop where
  | refl (σ : Sys) : ReachableFrom σ σ
  | tail {σ σ' σ'' : Sys} {e : Ev} :
      ReachableFrom σ σ' → Step σ' e σ'' → ReachableFrom σ σ''

/-- States reachable from the post-`Db::new` state. -/
def Reachable (σ : Sys) : Prop := ReachableFrom init σ

theorem upd_self {α : Type} (f : Nat → α) (i : Nat) (a : α) : upd f i a i = a := by
  simp [upd]

theorem upd_ne {α : Type} (f : Nat → α) (i j : Nat) (a : α) (h : j ≠ i) :
    upd f i a j = f j := by
  simp [upd, h]

theorem upd_cases {α : Type} {f : Nat → α} {i j : Nat} {a b : α}
    (h : upd f i a j = b) : (j = i ∧ a = b) ∨ (j ≠ i ∧ f j = b) := by
  by_cases hj : j = i
  · subst hj; rw [upd_self] at h; exact Or.inl ⟨rfl, h⟩
  · rw [upd_ne f i j a hj] at h; exact Or.inr ⟨hj, h⟩

theorem upd_true_mono {f : Nat → Bool} {i j : Nat} (h : f j = true) :
    upd f i true j = true := by
  by_cases hj : j = i
  · subst hj; exact upd_self f j true
  · rw [upd_ne f i j true hj]; exact h

/-- Inductive invariant of the commit pipeline.  The first group tracks
freshness of signal ids, the second ties waiting leaders and the shared
`DbState` together, the third establishes mutual exclusion of the leader's
I/O region, the fourth ties batch contents to the submission history, and
the last groups record durability and failure bookkeeping. -/
structure PipelineInv (σ : Sys) : Prop where
  freshSig : ∀ s, σ.nextSig ≤ s → σ.signals s = false
  freshFailed : ∀ s, σ.nextSig ≤ s → σ.failed s = false
  freshApplied : ∀ s, σ.nextSig ≤ s → σ.applied s = false
  waiterLt : ∀ t p s, σ.tstate t = .leaderWait p s → p < s ∧ s < σ.nextSig
  regionLt : ∀ t s, (σ.tstate t).ioSig = some s → s < σ.nextSig
  dbPendingLt : ∀ p, σ.dbState = .pending p → p < σ.nextSig
  dbLeaderLt : ∀ ws s, σ.dbState = .pendingLeader ws s → s < σ.nextSig
  waiterDb : ∀ t p s, σ.tstate t = .leaderWait p s →
    ∃ ws, σ.dbState = .pendingLeader ws s
  waiterUnique : ∀ t t' p p' s s', σ.tstate t = .leaderWait p s →
    σ.tstate t' = .leaderWait p' s' → t = t'
  plWaiter : ∀ ws s, σ.dbState = .pendingLeader ws s →
    ∃ t p, σ.tstate t = .leaderWait p s
  plSigFalse : ∀ ws s, σ.dbState = .pendingLeader ws s → σ.signals s = false
  regionSigFalse : ∀ t s, (σ.tstate t).ioSig = some s → σ.signals s = false
  regionUnique : ∀ t t' s s', (σ.tstate t).ioSig = some s →
    (σ.tstate t').ioSig = some s' → t = t'
  regionChain : ∀ t s t' p' s', (σ.tstate t).ioSig = some s →
    σ.tstate t' = .leaderWait p' s' → p' = s
  regionPending : ∀ t s p, (σ.tstate t).ioSig = some s →
    σ.dbState = .pending p → p = s
  plBatch : ∀ ws s, σ.dbState = .pendingLeader ws s → ws = σ.submitted s
  regionBatch : ∀ t s ws, (σ.tstate t = .leaderWrite s ws ∨
    σ.tstate t = .leaderSync s ws ∨ σ.tstate t = .leaderApply s ws) →
    ws = σ.submitted s
  applySynced : ∀ t s ws, σ.tstate t = .leaderApply s ws → σ.synced s = true
  resolveSynced : ∀ t s, σ.tstate t = .leaderResolve s → σ.synced s = true
  sigSynced : ∀ s, σ.signals s = true → σ.synced s = true
  retOkSynced : ∀ t s, σ.tstate t = .retOk s → σ.synced s = true
  appliedSynced : ∀ s, σ.applied s = true → σ.synced s = true
  failedNotApplied : ∀ s, σ.failed s = true → σ.applied s = false
  appliedNoWSA : ∀ t s ws, σ.applied s = true →
    σ.tstate t ≠ .leaderWrite s ws ∧ σ.tstate t ≠ .leaderSync s ws ∧
    σ.tstate t ≠ .leaderApply s ws
  appliedNoWaiter : ∀ t p s, σ.applied s = true → σ.tstate t ≠ .leaderWait p s
  failedNoRegion : ∀ t s, σ.failed s = true → (σ.tstate t).ioSig ≠ some s
  failedNoWaiter : ∀ t p s, σ.failed s = true → σ.tstate t ≠ .leaderWait p s
  failedSigFalse : ∀ s, σ.failed s = true → σ.signals s = false

theorem inv_init : PipelineInv init := by
  refine
    { freshSig := ?_, freshFailed := ?_, freshApplied := ?_, waiterLt := ?_,
      regionLt := ?_, dbPendingLt := ?_, dbLeaderLt := ?_, waiterDb := ?_,
      waiterUnique := ?_, plWaiter := ?_, plSigFalse := ?_, regionSigFalse := ?_,
      regionUnique := ?_, regionChain := ?_, regionPending := ?_, plBatch := ?_,
      regionBatch := ?_, applySynced := ?_, resolveSynced := ?_, sigSynced := ?_,
      retOkSynced := ?_, appliedSynced := ?_, failedNotApplied := ?_,
      appliedNoWSA := ?_, appliedNoWaiter := ?_, failedNoRegion := ?_,
      failedNoWaiter := ?_, failedSigFalse := ?_ }
  · intro s hs
    show (s == 0) = false
    simp only [init] at hs
    simp only [beq_eq_false_iff_ne, ne_eq]
    omega
  · intro s _; rfl
  · intro s _; rfl
  · intro t p s h; exact absurd h (by simp [init])
  · intro t s h; exact absurd h (by simp [init, TState.ioSig])
  · intro p h
    simp only [init] at h ⊢
    cases h
    omega
  · intro ws s h; exact absurd h (by simp [init])
  · intro t p s h; exact absurd h (by simp [init])
  · intro t t' p p' s s' h _; exact absurd h (by simp [init])
  · intro ws s h; exact absurd h (by simp [init])
  · intro ws s h; exact absurd h (by simp [init])
  · intro t s h; exact absurd h (by simp [init, TState.ioSig])
  · intro t t' s s' h _; exact absurd h (by simp [init, TState.ioSig])
  · intro t s t' p' s' h _; exact absurd h (by simp [init, TState.ioSig])
  · intro t s p h _; exact absurd h (by simp [init, TState.ioSig])
  · intro ws s h; exact absurd h (by simp [init])
  · intro t s ws h
    rcases h with h | h | h <;> exact absurd h (by simp [init])
  · intro t s ws h; exact absurd h (by simp [init])
  · intro t s h; exact absurd h (by simp [init])
  · intro s h; exact h
  · intro t s h; exact absurd h (by simp [init])
  · intro s h; exact absurd h (by simp [init])
  · intro s h; exact absurd h (by simp [init])
  · intro t s ws h; exact absurd h (by simp [init])
  · intro t p s h; exact absurd h (by simp [init])
  · intro t s h; exact absurd h (by simp [init])
  · intro t p s h; exact absurd h (by simp [init])
  · intro s h; exact absurd h (by simp [init])

theorem inv_elect (σ : Sys) (inv : PipelineInv σ) (t : Nat) (c : Command) (p : Nat)
    (ht : σ.tstate t = .idle) (hdb : σ.dbState = .pending p) :
    PipelineInv
      { σ with
        dbState := .pendingLeader [c] σ.nextSig
        nextSig := σ.nextSig + 1
        tstate := upd σ.tstate t (.leaderWait p σ.nextSig)
        submitted := upd σ.submitted σ.nextSig [c] } := by
  have noWaiter : ∀ t' p' s', σ.tstate t' = .leaderWait p' s' → False := by
    intro t' p' s' h
    obtain ⟨ws, hws⟩ := inv.waiterDb t' p' s' h
    rw [hdb] at hws
    exact DbSt.noConfusion hws
  have hpns : p < σ.nextSig := inv.dbPendingLt p hdb
  refine
    { freshSig := ?_, freshFailed := ?_, freshApplied := ?_, waiterLt := ?_,
      regionLt := ?_, dbPendingLt := ?_, dbLeaderLt := ?_, waiterDb := ?_,
      waiterUnique := ?_, plWaiter := ?_, plSigFalse := ?_, regionSigFalse := ?_,
      regionUnique := ?_, regionChain := ?_, regionPending := ?_, plBatch := ?_,
      regionBatch := ?_, applySynced := ?_, resolveSynced := ?_, sigSynced := ?_,
      retOkSynced := ?_, appliedSynced := ?_, failedNotApplied := ?_,
      appliedNoWSA := ?_, appliedNoWaiter := ?_, failedNoRegion := ?_,
      failedNoWaiter := ?_, failedSigFalse := ?_ }
  · intro s hs
    dsimp only at hs ⊢
    exact inv.freshSig s (by omega)
  · intro s hs
    dsimp only at hs ⊢
    exact inv.freshFailed s (by omega)
  · intro s hs
    dsimp only at hs ⊢
    exact inv.freshApplied s (by omega)
  · intro t' p' s' h
    dsimp only at h ⊢
    rcases upd_cases h with ⟨_, hval⟩ | ⟨_, hold⟩
    · injection hval with h1 h2
      subst h1; subst h2
      exact ⟨hpns, by omega⟩
    · exact (noWaiter t' p' s' hold).elim
  · intro t' s h
    dsimp only at h ⊢
    by_cases ht' : t' = t
    · subst ht'; rw [upd_self] at h
      exact absurd h (by simp [TState.ioSig])
    · rw [upd_ne _ _ _ _ ht'] at h
      have := inv.regionLt t' s h
      omega
  · intro p' h
    dsimp only at h
    exact DbSt.noConfusion h
  · intro ws s h
    dsimp only at h ⊢
    injection h with h1 h2
    subst h2
    omega
  · intro t' p' s' h
    dsimp only at h ⊢
    rcases upd_cases h with ⟨_, hval⟩ | ⟨_, hold⟩
    · injection hval with h1 h2
      subst h2
      exact ⟨[c], rfl⟩
    · exact (noWaiter t' p' s' hold).elim
  · intro t' t'' p' p'' s' s'' h h'
    dsimp only at h h'
    rcases upd_cases h with ⟨he, _⟩ | ⟨_, hold⟩
    · rcases upd_cases h' with ⟨he', _⟩ | ⟨_, hold'⟩
      · rw [he, he']
      · exact (noWaiter t'' p'' s'' hold').elim
    · exact (noWaiter t' p' s' hold).elim
  · intro ws s h
    dsimp only at h ⊢
    injection h with h1 h2
    subst h2
    refine ⟨t, p, ?_⟩
    exact upd_self _ _ _
  · intro ws s h
    dsimp only at h ⊢
    injection h with h1 h2
    subst h2
    exact inv.freshSig σ.nextSig (Nat.le_refl _)
  · intro t' s h
    dsimp only at h ⊢
    by_cases ht' : t' = t
    · subst ht'; rw [upd_self] at h
      exact absurd h (by simp [TState.ioSig])
    · rw [upd_ne _ _ _ _ ht'] at h
      exact inv.regionSigFalse t' s h
  · intro t' t'' s' s'' h h'
    dsimp only at h h'
    by_cases h1 : t' = t
    · subst h1; rw [upd_self] at h
      exact absurd h (by simp [TState.ioSig])
    · by_cases h2 : t'' = t
      · subst h2; rw [upd_self] at h'
        exact absurd h' (by simp [TState.ioSig])
      · rw [upd_ne _ _ _ _ h1] at h
        rw [upd_ne _ _ _ _ h2] at h'
        exact inv.regionUnique t' t'' s' s'' h h'
  · intro t' s t'' p'' s'' hio hw
    dsimp only at hio hw
    by_cases h1 : t' = t
    · subst h1; rw [upd_self] at hio
      exact absurd hio (by simp [TState.ioSig])
    · rw [upd_ne _ _ _ _ h1] at hio
      rcases upd_cases hw with ⟨_, hval⟩ | ⟨_, hold⟩
      · injection hval with h2 h3
        subst h2
        exact inv.regionPending t' s p hio hdb
      · exact (noWaiter t'' p'' s'' hold).elim
  · intro t' s p' hio hp
    dsimp only at hp
    exact DbSt.noConfusion hp
  · intro ws s h
    dsimp only at h ⊢
    injection h with h1 h2
    subst h2; subst h1
    exact (upd_self _ _ _).symm
  · intro t' s ws h
    dsimp only at h ⊢
    have hold : σ.tstate t' = .leaderWrite s ws ∨ σ.tstate t' = .leaderSync s ws ∨
        σ.tstate t' = .leaderApply s ws := by
      rcases h with h | h | h
      · rcases upd_cases h with ⟨_, hval⟩ | ⟨_, hh⟩
        · exact TState.noConfusion hval
        · exact Or.inl hh
      · rcases upd_cases h with ⟨_, hval⟩ | ⟨_, hh⟩
        · exact TState.noConfusion hval
        · exact Or.inr (Or.inl hh)
      · rcases upd_cases h with ⟨_, hval⟩ | ⟨_, hh⟩
        · exact TState.noConfusion hval
        · exact Or.inr (Or.inr hh)
    have hsub := inv.regionBatch t' s ws hold
    have hio : (σ.tstate t').ioSig = some s := by
      rcases hold with hh | hh | hh <;> rw [hh] <;> rfl
    have hlt : s < σ.nextSig := inv.regionLt t' s hio
    rw [hsub, upd_ne _ _ _ _ (by omega)]
  · intro t' s ws h
    dsimp only at h ⊢
    rcases upd_cases h with ⟨_, hval⟩ | ⟨_, hold⟩
    · exact TState.noConfusion hval
    · exact inv.applySynced t' s ws hold
  · intro t' s h
    dsimp only at h ⊢
    rcases upd_cases h with ⟨_, hval⟩ | ⟨_, hold⟩
    · exact TState.noConfusion hval
    · exact inv.resolveSynced t' s hold
  · intro s h
    dsimp only at h ⊢
    exact inv.sigSynced s h
  · intro t' s h
    dsimp only at h ⊢
    rcases upd_cases h with ⟨_, hval⟩ | ⟨_, hold⟩
    · exact TState.noConfusion hval
    · exact inv.retOkSynced t' s hold
  · intro s h
    dsimp only at h ⊢
    exact inv.appliedSynced s h
  · intro s h
    dsimp only at h ⊢
    exact inv.failedNotApplied s h
  · intro t' s ws h
    dsimp only at h ⊢
    refine ⟨?_, ?_, ?_⟩ <;> intro heq
    · rcases upd_cases heq with ⟨_, hval⟩ | ⟨_, hold⟩
      · exact TState.noConfusion hval
      · exact (inv.appliedNoWSA t' s ws h).1 hold
    · rcases upd_cases heq with ⟨_, hval⟩ | ⟨_, hold⟩
      · exact TState.noConfusion hval
      · exact (inv.appliedNoWSA t' s ws h).2.1 hold
    · rcases upd_cases heq with ⟨_, hval⟩ | ⟨_, hold⟩
      · exact TState.noConfusion hval
      · exact (inv.appliedNoWSA t' s ws h).2.2 hold
  · intro t' p' s h heq
    dsimp only at h heq
    rcases upd_cases heq with ⟨_, hval⟩ | ⟨_, hold⟩
    · injection hval with h1 h2
      subst h2
      rw [inv.freshApplied σ.nextSig (Nat.le_refl _)] at h
      exact Bool.noConfusion h
    · exact inv.appliedNoWaiter t' p' s h hold
  · intro t' s h hio
    dsimp only at h hio
    by_cases ht' : t' = t
    · subst ht'; rw [upd_self] at hio
      exact absurd hio (by simp [TState.ioSig])
    · rw [upd_ne _ _ _ _ ht'] at hio
      exact inv.failedNoRegion t' s h hio
  · intro t' p' s h heq
    dsimp only at h heq
    rcases upd_cases heq with ⟨_, hval⟩ | ⟨_, hold⟩
    · injection hval with h1 h2
      subst h2
      rw [inv.freshFailed σ.nextSig (Nat.le_refl _)] at h
      exact Bool.noConfusion h
    · exact inv.failedNoWaiter t' p' s h hold
  · intro s h
    dsimp only at h ⊢
    exact inv.failedSigFalse s h

theorem inv_join (σ : Sys) (inv : PipelineInv σ) (t : Nat) (c : Command)
    (ws : List Command) (s : Nat)
    (ht : σ.tstate t = .idle) (hdb : σ.dbState = .pendingLeader ws s) :
    PipelineInv
      { σ with
        dbState := .pendingLeader (ws ++ [c]) s
        tstate := upd σ.tstate t (.followerWait s)
        submitted := upd σ.submitted s (σ.submitted s ++ [c]) } := by
  have hslt : s < σ.nextSig := inv.dbLeaderLt ws s hdb
  have hbatch : ws = σ.submitted s := inv.plBatch ws s hdb
  obtain ⟨tw, pw, hw⟩ := inv.plWaiter ws s hdb
  have htw_ne : tw ≠ t := by
    intro hh
    rw [hh, ht] at hw
    exact TState.noConfusion hw
  have regionLtS : ∀ t₂ s₂, (σ.tstate t₂).ioSig = some s₂ → s₂ < s := by
    intro t₂ s₂ hio
    have h1 := inv.regionChain t₂ s₂ tw pw s hio hw
    have h2 := (inv.waiterLt tw pw s hw).1
    omega
  refine
    { freshSig := ?_, freshFailed := ?_, freshApplied := ?_, waiterLt := ?_,
      regionLt := ?_, dbPendingLt := ?_, dbLeaderLt := ?_, waiterDb := ?_,
      waiterUnique := ?_, plWaiter := ?_, plSigFalse := ?_, regionSigFalse := ?_,
      regionUnique := ?_, regionChain := ?_, regionPending := ?_, plBatch := ?_,
      regionBatch := ?_, applySynced := ?_, resolveSynced := ?_, sigSynced := ?_,
      retOkSynced := ?_, appliedSynced := ?_, failedNotApplied := ?_,
      appliedNoWSA := ?_, appliedNoWaiter := ?_, failedNoRegion := ?_,
      failedNoWaiter := ?_, failedSigFalse := ?_ }
  · intro s' hs
    dsimp only at hs ⊢
    exact inv.freshSig s' hs
  · intro s' hs
    dsimp only at hs ⊢
    exact inv.freshFailed s' hs
  · intro s' hs
    dsimp only at hs ⊢
    exact inv.freshApplied s' hs
  · intro t' p' s' h
    dsimp only at h ⊢
    rcases upd_cases h with ⟨_, hval⟩ | ⟨_, hold⟩
    · exact TState.noConfusion hval
    · exact inv.waiterLt t' p' s' hold
  · intro t' s' h
    dsimp only at h ⊢
    by_cases ht' : t' = t
    · subst ht'; rw [upd_self] at h
      exact absurd h (by simp [TState.ioSig])
    · rw [upd_ne _ _ _ _ ht'] at h
      exact inv.regionLt t' s' h
  · intro p' h
    dsimp only at h
    exact DbSt.noConfusion h
  · intro ws' s' h
    dsimp only at h ⊢
    injection h with h1 h2
    subst h2
    exact hslt
  · intro t' p' s' h
    dsimp only at h ⊢
    rcases upd_cases h with ⟨_, hval⟩ | ⟨_, hold⟩
    · exact TState.noConfusion hval
    · obtain ⟨ws₂, hws₂⟩ := inv.waiterDb t' p' s' hold
      rw [hdb] at hws₂
      injection hws₂ with h1 h2
      subst h2
      exact ⟨ws ++ [c], rfl⟩
  · intro t' t'' p' p'' s' s'' h h'
    dsimp only at h h'
    rcases upd_cases h with ⟨_, hval⟩ | ⟨_, hold⟩
    · exact TState.noConfusion hval
    · rcases upd_cases h' with ⟨_, hval'⟩ | ⟨_, hold'⟩
      · exact TState.noConfusion hval'
      · exact inv.waiterUnique t' t'' p' p'' s' s'' hold hold'
  · intro ws' s' h
    dsimp only at h ⊢
    injection h with h1 h2
    subst h2
    refine ⟨tw, pw, ?_⟩
    rw [upd_ne _ _ _ _ htw_ne]
    exact hw
  · intro ws' s' h
    dsimp only at h ⊢
    injection h with h1 h2
    subst h2
    exact inv.plSigFalse ws s hdb
  · intro t' s' h
    dsimp only at h ⊢
    by_cases ht' : t' = t
    · subst ht'; rw [upd_self] at h
      exact absurd h (by simp [TState.ioSig])
    · rw [upd_ne _ _ _ _ ht'] at h
      exact inv.regionSigFalse t' s' h
  · intro t' t'' s' s'' h h'
    dsimp only at h h'
    by_cases h1 : t' = t
    · subst h1; rw [upd_self] at h
      exact absurd h (by simp [TState.ioSig])
    · by_cases h2 : t'' = t
      · subst h2; rw [upd_self] at h'
        exact absurd h' (by simp [TState.ioSig])
      · rw [upd_ne _ _ _ _ h1] at h
        rw [upd_ne _ _ _ _ h2] at h'
        exact inv.regionUnique t' t'' s' s'' h h'
  · intro t' s' t'' p'' s'' hio hwv
    dsimp only at hio hwv
    by_cases h1 : t' = t
    · subst h1; rw [upd_self] at hio
      exact absurd hio (by simp [TState.ioSig])
    · rw [upd_ne _ _ _ _ h1] at hio
      rcases upd_cases hwv with ⟨_, hval⟩ | ⟨_, hold⟩
      · exact TState.noConfusion hval
      · exact inv.regionChain t' s' t'' p'' s'' hio hold
  · intro t' s' p' hio hp
    dsimp only at hp
    exact DbSt.noConfusion hp
  · intro ws' s' h
    dsimp only at h ⊢
    injection h with h1 h2
    subst h2; subst h1
    rw [upd_self, hbatch]
  · intro t' s' ws' h
    dsimp only at h ⊢
    have hold : σ.tstate t' = .leaderWrite s' ws' ∨ σ.tstate t' = .leaderSync s' ws' ∨
        σ.tstate t' = .leaderApply s' ws' := by
      rcases h with h | h | h
      · rcases upd_cases h with ⟨_, hval⟩ | ⟨_, hh⟩
        · exact TState.noConfusion hval
        · exact Or.inl hh
      · rcases upd_cases h with ⟨_, hval⟩ | ⟨_, hh⟩
        · exact TState.noConfusion hval
        · exact Or.inr (Or.inl hh)
      · rcases upd_cases h with ⟨_, hval⟩ | ⟨_, hh⟩
        · exact TState.noConfusion hval
        · exact Or.inr (Or.inr hh)
    have hsub := inv.regionBatch t' s' ws' hold
    have hio : (σ.tstate t').ioSig = some s' := by
      rcases hold with hh | hh | hh <;> rw [hh] <;> rfl
    have hlt : s' < s := regionLtS t' s' hio
    rw [hsub, upd_ne _ _ _ _ (Nat.ne_of_lt hlt)]
  · intro t' s' ws' h
    dsimp only at h ⊢
    rcases upd_cases h with ⟨_, hval⟩ | ⟨_, hold⟩
    · exact TState.noConfusion hval
    · exact inv.applySynced t' s' ws' hold
  · intro t' s' h
    dsimp only at h ⊢
    rcases upd_cases h with ⟨_, hval⟩ | ⟨_, hold⟩
    · exact TState.noConfusion hval
    · exact inv.resolveSynced t' s' hold
  · intro s' h
    dsimp only at h ⊢
    exact inv.sigSynced s' h
  · intro t' s' h
    dsimp only at h ⊢
    rcases upd_cases h with ⟨_, hval⟩ | ⟨_, hold⟩
    · exact TState.noConfusion hval
    · exact inv.retOkSynced t' s' hold
  · intro s' h
    dsimp only at h ⊢
    exact inv.appliedSynced s' h
  · intro s' h
    dsimp only at h ⊢
    exact inv.failedNotApplied s' h
  · intro t' s' ws' h
    dsimp only at h ⊢
    refine ⟨?_, ?_, ?_⟩ <;> intro heq
    · rcases upd_cases heq with ⟨_, hval⟩ | ⟨_, hold⟩
      · exact TState.noConfusion hval
      · exact (inv.appliedNoWSA t' s' ws' h).1 hold
    · rcases upd_cases heq with ⟨_, hval⟩ | ⟨_, hold⟩
      · exact TState.noConfusion hval
      · exact (inv.appliedNoWSA t' s' ws' h).2.1 hold
    · rcases upd_cases heq with ⟨_, hval⟩ | ⟨_, hold⟩
      · exact TState.noConfusion hval
      · exact (inv.appliedNoWSA t' s' ws' h).2.2 hold
  · intro t' p' s' h heq
    dsimp only at h heq
    rcases upd_cases heq with ⟨_, hval⟩ | ⟨_, hold⟩
    · exact TState.noConfusion hval
    · exact inv.appliedNoWaiter t' p' s' h hold
  · intro t' s' h hio
    dsimp only at h hio
    by_cases ht' : t' = t
    · subst ht'; rw [upd_self] at hio
      exact absurd hio (by simp [TState.ioSig])
    · rw [upd_ne _ _ _ _ ht'] at hio
      exact inv.failedNoRegion t' s' h hio
  · intro t' p' s' h heq
    dsimp only at h heq
    rcases upd_cases heq with ⟨_, hval⟩ | ⟨_, hold⟩
    · exact TState.noConfusion hval
    · exact inv.failedNoWaiter t' p' s' h hold
  · intro s' h
    dsimp only at h ⊢
    exact inv.failedSigFalse s' h

theorem inv_wake (σ : Sys) (inv : PipelineInv σ) (t p s : Nat) (ws : List Command)
    (ht : σ.tstate t = .leaderWait p s)
    (hsig : σ.signals p = true)
    (hdb : σ.dbState = .pendingLeader ws s) :
    PipelineInv
      { σ with
        dbState := .pending s
        tstate := upd σ.tstate t (.leaderWrite s ws) } := by
  have noRegion : ∀ t₂ s₂, (σ.tstate t₂).ioSig = some s₂ → False := by
    intro t₂ s₂ hio
    have h1 := inv.regionChain t₂ s₂ t p s hio ht
    have h2 := inv.regionSigFalse t₂ s₂ hio
    rw [h1] at hsig
    rw [hsig] at h2
    exact Bool.noConfusion h2
  have onlyWaiter : ∀ t₂ p₂ s₂, σ.tstate t₂ = .leaderWait p₂ s₂ → t₂ = t := by
    intro t₂ p₂ s₂ h
    exact inv.waiterUnique t₂ t p₂ p s₂ s h ht
  have hplt := inv.waiterLt t p s ht
  have hbatch : ws = σ.submitted s := inv.plBatch ws s hdb
  have hsigs : σ.signals s = false := inv.plSigFalse ws s hdb
  have happl : σ.applied s = false := by
    cases hval : σ.applied s
    · rfl
    · exact absurd ht (inv.appliedNoWaiter t p s hval)
  have hfail : σ.failed s = false := by
    cases hval : σ.failed s
    · rfl
    · exact absurd ht (inv.failedNoWaiter t p s hval)
  refine
    { freshSig := ?_, freshFailed := ?_, freshApplied := ?_, waiterLt := ?_,
      regionLt := ?_, dbPendingLt := ?_, dbLeaderLt := ?_, waiterDb := ?_,
      waiterUnique := ?_, plWaiter := ?_, plSigFalse := ?_, regionSigFalse := ?_,
      regionUnique := ?_, regionChain := ?_, regionPending := ?_, plBatch := ?_,
      regionBatch := ?_, applySynced := ?_, resolveSynced := ?_, sigSynced := ?_,
      retOkSynced := ?_, appliedSynced := ?_, failedNotApplied := ?_,
      appliedNoWSA := ?_, appliedNoWaiter := ?_, failedNoRegion := ?_,
      failedNoWaiter := ?_, failedSigFalse := ?_ }
  · intro s' hs
    dsimp only at hs ⊢
    exact inv.freshSig s' hs
  · intro s' hs
    dsimp only at hs ⊢
    exact inv.freshFailed s' hs
  · intro s' hs
    dsimp only at hs ⊢
    exact inv.freshApplied s' hs
  · intro t' p' s' h
    dsimp only at h ⊢
    rcases upd_cases h with ⟨_, hval⟩ | ⟨hne, hold⟩
    · exact TState.noConfusion hval
    · exact absurd (onlyWaiter t' p' s' hold) hne
  · intro t' s' h
    dsimp only at h ⊢
    by_cases ht' : t' = t
    · subst ht'; rw [upd_self] at h
      simp only [TState.ioSig, Option.some.injEq] at h
      subst h
      exact hplt.2
    · rw [upd_ne _ _ _ _ ht'] at h
      exact (noRegion t' s' h).elim
  · intro p' h
    dsimp only at h ⊢
    injection h with h1
    subst h1
    exact hplt.2
  · intro ws' s' h
    dsimp only at h
    exact DbSt.noConfusion h
  · intro t' p' s' h
    dsimp only at h ⊢
    rcases upd_cases h with ⟨_, hval⟩ | ⟨hne, hold⟩
    · exact TState.noConfusion hval
    · exact absurd (onlyWaiter t' p' s' hold) hne
  · intro t' t'' p' p'' s' s'' h h'
    dsimp only at h h'
    rcases upd_cases h with ⟨_, hval⟩ | ⟨hne, hold⟩
    · exact TState.noConfusion hval
    · exact absurd (onlyWaiter t' p' s' hold) hne
  · intro ws' s' h
    dsimp only at h
    exact DbSt.noConfusion h
  · intro ws' s' h
    dsimp only at h
    exact DbSt.noConfusion h
  · intro t' s' h
    dsimp only at h ⊢
    by_cases ht' : t' = t
    · subst ht'; rw [upd_self] at h
      simp only [TState.ioSig, Option.some.injEq] at h
      subst h
      exact hsigs
    · rw [upd_ne _ _ _ _ ht'] at h
      exact (noRegion t' s' h).elim
  · intro t' t'' s' s'' h h'
    dsimp only at h h'
    by_cases h1 : t' = t
    · by_cases h2 : t'' = t
      · rw [h1, h2]
      · rw [upd_ne _ _ _ _ h2] at h'
        exact (noRegion t'' s'' h').elim
    · rw [upd_ne _ _ _ _ h1] at h
      exact (noRegion t' s' h).elim
  · intro t' s' t'' p'' s'' hio hwv
    dsimp only at hio hwv
    rcases upd_cases hwv with ⟨_, hval⟩ | ⟨hne, hold⟩
    · exact TState.noConfusion hval
    · exact absurd (onlyWaiter t'' p'' s'' hold) hne
  · intro t' s' p' hio hp
    dsimp only at hio hp
    injection hp with h1
    subst h1
    by_cases ht' : t' = t
    · subst ht'; rw [upd_self] at hio
      simp only [TState.ioSig, Option.some.injEq] at hio
      exact hio
    · rw [upd_ne _ _ _ _ ht'] at hio
      exact (noRegion t' s' hio).elim
  · intro ws' s' h
    dsimp only at h
    exact DbSt.noConfusion h
  · intro t' s' ws' h
    dsimp only at h ⊢
    rcases h with h | h | h
    · rcases upd_cases h with ⟨_, hval⟩ | ⟨hne, hold⟩
      · injection hval with h1 h2
        subst h1; subst h2
        exact hbatch
      · have hio : (σ.tstate t').ioSig = some s' := by rw [hold]; rfl
        exact (noRegion t' s' hio).elim
    · rcases upd_cases h with ⟨_, hval⟩ | ⟨hne, hold⟩
      · exact TState.noConfusion hval
      · have hio : (σ.tstate t').ioSig = some s' := by rw [hold]; rfl
        exact (noRegion t' s' hio).elim
    · rcases upd_cases h with ⟨_, hval⟩ | ⟨hne, hold⟩
      · exact TState.noConfusion hval
      · have hio : (σ.tstate t').ioSig = some s' := by rw [hold]; rfl
        exact (noRegion t' s' hio).elim
  · intro t' s' ws' h
    dsimp only at h ⊢
    rcases upd_cases h with ⟨_, hval⟩ | ⟨_, hold⟩
    · exact TState.noConfusion hval
    · exact inv.applySynced t' s' ws' hold
  · intro t' s' h
    dsimp only at h ⊢
    rcases upd_cases h with ⟨_, hval⟩ | ⟨_, hold⟩
    · exact TState.noConfusion hval
    · exact inv.resolveSynced t' s' hold
  · intro s' h
    dsimp only at h ⊢
    exact inv.sigSynced s' h
  · intro t' s' h
    dsimp only at h ⊢
    rcases upd_cases h with ⟨_, hval⟩ | ⟨_, hold⟩
    · exact TState.noConfusion hval
    · exact inv.retOkSynced t' s' hold
  · intro s' h
    dsimp only at h ⊢
    exact inv.appliedSynced s' h
  · intro s' h
    dsimp only at h ⊢
    exact inv.failedNotApplied s' h
  · intro t' s' ws' h
    dsimp only at h ⊢
    refine ⟨?_, ?_, ?_⟩ <;> intro heq
    · rcases upd_cases heq with ⟨_, hval⟩ | ⟨_, hold⟩
      · injection hval with h1 h2
        subst h1
        rw [happl] at h
        exact Bool.noConfusion h
      · exact (inv.appliedNoWSA t' s' ws' h).1 hold
    · rcases upd_cases heq with ⟨_, hval⟩ | ⟨_, hold⟩
      · exact TState.noConfusion hval
      · exact (inv.appliedNoWSA t' s' ws' h).2.1 hold
    · rcases upd_cases heq with ⟨_, hval⟩ | ⟨_, hold⟩
      · exact TState.noConfusion hval
      · exact (inv.appliedNoWSA t' s' ws' h).2.2 hold
  · intro t' p' s' h heq
    dsimp only at h heq
    rcases upd_cases heq with ⟨_, hval⟩ | ⟨_, hold⟩
    · exact TState.noConfusion hval
    · exact inv.appliedNoWaiter t' p' s' h hold
  · intro t' s' h hio
    dsimp only at h hio
    by_cases ht' : t' = t
    · subst ht'; rw [upd_self] at hio
      simp only [TState.ioSig, Option.some.injEq] at hio
      subst hio
      rw [hfail] at h
      exact Bool.noConfusion h
    · rw [upd_ne _ _ _ _ ht'] at hio
      exact (noRegion t' s' hio).elim
  · intro t' p' s' h heq
    dsimp only at h heq
    rcases upd_cases heq with ⟨_, hval⟩ | ⟨_, hold⟩
    · exact TState.noConfusion hval
    · exact inv.failedNoWaiter t' p' s' h hold
  · intro s' h
    dsimp only at h ⊢
    exact inv.failedSigFalse s' h

theorem inv_writeOk (σ : Sys) (inv : PipelineInv σ) (t s : Nat) (ws : List Command)
    (ht : σ.tstate t = .leaderWrite s ws) :
    PipelineInv
      { σ with
        log := σ.log ++ encodeBatch ws
        tstate := upd σ.tstate t (.leaderSync s ws) } := by
  have hio_t : (σ.tstate t).ioSig = some s := by rw [ht]; rfl
  have hslt : s < σ.nextSig := inv.regionLt t s hio_t
  have hsigs : σ.signals s = false := inv.regionSigFalse t s hio_t
  have hbatch : ws = σ.submitted s := inv.regionBatch t s ws (Or.inl ht)
  have happl : σ.applied s = false := by
    cases hval : σ.applied s
    · rfl
    · exact absurd ht (inv.appliedNoWSA t s ws hval).1
  have hfail : σ.failed s = false := by
    cases hval : σ.failed s
    · rfl
    · exact absurd hio_t (inv.failedNoRegion t s hval)
  have onlyRegion : ∀ t₂ s₂, (σ.tstate t₂).ioSig = some s₂ → t₂ = t := by
    intro t₂ s₂ h
    exact inv.regionUnique t₂ t s₂ s h hio_t
  refine
    { freshSig := ?_, freshFailed := ?_, freshApplied := ?_, waiterLt := ?_,
      regionLt := ?_, dbPendingLt := ?_, dbLeaderLt := ?_, waiterDb := ?_,
      waiterUnique := ?_, plWaiter := ?_, plSigFalse := ?_, regionSigFalse := ?_,
      regionUnique := ?_, regionChain := ?_, regionPending := ?_, plBatch := ?_,
      regionBatch := ?_, applySynced := ?_, resolveSynced := ?_, sigSynced := ?_,
      retOkSynced := ?_, appliedSynced := ?_, failedNotApplied := ?_,
      appliedNoWSA := ?_, appliedNoWaiter := ?_, failedNoRegion := ?_,
      failedNoWaiter := ?_, failedSigFalse := ?_ }
  · intro s' hs
    dsimp only at hs ⊢
    exact inv.freshSig s' hs
  · intro s' hs
    dsimp only at hs ⊢
    exact inv.freshFailed s' hs
  · intro s' hs
    dsimp only at hs ⊢
    exact inv.freshApplied s' hs
  · intro t' p' s' h
    dsimp only at h ⊢
    rcases upd_cases h with ⟨_, hval⟩ | ⟨_, hold⟩
    · exact TState.noConfusion hval
    · exact inv.waiterLt t' p' s' hold
  · intro t' s' h
    dsimp only at h ⊢
    by_cases ht' : t' = t
    · subst ht'; rw [upd_self] at h
      simp only [TState.ioSig, Option.some.injEq] at h
      subst h
      exact hslt
    · rw [upd_ne _ _ _ _ ht'] at h
      exact inv.regionLt t' s' h
  · intro p' h
    dsimp only at h ⊢
    exact inv.dbPendingLt p' h
  · intro ws' s' h
    dsimp only at h ⊢
    exact inv.dbLeaderLt ws' s' h
  · intro t' p' s' h
    dsimp only at h ⊢
    rcases upd_cases h with ⟨_, hval⟩ | ⟨_, hold⟩
    · exact TState.noConfusion hval
    · exact inv.waiterDb t' p' s' hold
  · intro t' t'' p' p'' s' s'' h h'
    dsimp only at h h'
    rcases upd_cases h with ⟨_, hval⟩ | ⟨_, hold⟩
    · exact TState.noConfusion hval
    · rcases upd_cases h' with ⟨_, hval'⟩ | ⟨_, hold'⟩
      · exact TState.noConfusion hval'
      · exact inv.waiterUnique t' t'' p' p'' s' s'' hold hold'
  · intro ws' s' h
    dsimp only at h ⊢
    obtain ⟨tw, pw, hw⟩ := inv.plWaiter ws' s' h
    have htw : tw ≠ t := by
      intro hh
      rw [hh, ht] at hw
      exact TState.noConfusion hw
    refine ⟨tw, pw, ?_⟩
    rw [upd_ne _ _ _ _ htw]
    exact hw
  · intro ws' s' h
    dsimp only at h ⊢
    exact inv.plSigFalse ws' s' h
  · intro t' s' h
    dsimp only at h ⊢
    by_cases ht' : t' = t
    · subst ht'; rw [upd_self] at h
      simp only [TState.ioSig, Option.some.injEq] at h
      subst h
      exact hsigs
    · rw [upd_ne _ _ _ _ ht'] at h
      exact inv.regionSigFalse t' s' h
  · intro t' t'' s' s'' h h'
    dsimp only at h h'
    by_cases h1 : t' = t
    · by_cases h2 : t'' = t
      · rw [h1, h2]
      · rw [upd_ne _ _ _ _ h2] at h'
        rw [h1]
        exact (onlyRegion t'' s'' h').symm ▸ rfl
    · rw [upd_ne _ _ _ _ h1] at h
      by_cases h2 : t'' = t
      · rw [onlyRegion t' s' h, h2]
      · rw [upd_ne _ _ _ _ h2] at h'
        exact inv.regionUnique t' t'' s' s'' h h'
  · intro t' s' t'' p'' s'' hio hwv
    dsimp only at hio hwv
    rcases upd_cases hwv with ⟨_, hval⟩ | ⟨_, hold⟩
    · exact TState.noConfusion hval
    · by_cases ht' : t' = t
      · subst ht'; rw [upd_self] at hio
        simp only [TState.ioSig, Option.some.injEq] at hio
        subst hio
        exact inv.regionChain t' s t'' p'' s'' hio_t hold
      · rw [upd_ne _ _ _ _ ht'] at hio
        exact inv.regionChain t' s' t'' p'' s'' hio hold
  · intro t' s' p' hio hp
    dsimp only at hio hp
    by_cases ht' : t' = t
    · subst ht'; rw [upd_self] at hio
      simp only [TState.ioSig, Option.some.injEq] at hio
      subst hio
      exact inv.regionPending t' s p' hio_t hp
    · rw [upd_ne _ _ _ _ ht'] at hio
      exact inv.regionPending t' s' p' hio hp
  · intro ws' s' h
    dsimp only at h ⊢
    exact inv.plBatch ws' s' h
  · intro t' s' ws' h
    dsimp only at h ⊢
    rcases h with h | h | h
    · rcases upd_cases h with ⟨_, hval⟩ | ⟨_, hold⟩
      · exact TState.noConfusion hval
      · exact inv.regionBatch t' s' ws' (Or.inl hold)
    · rcases upd_cases h with ⟨_, hval⟩ | ⟨_, hold⟩
      · injection hval with h1 h2
        subst h1; subst h2
        exact hbatch
      · exact inv.regionBatch t' s' ws' (Or.inr (Or.inl hold))
    · rcases upd_cases h with ⟨_, hval⟩ | ⟨_, hold⟩
      · exact TState.noConfusion hval
      · exact inv.regionBatch t' s' ws' (Or.inr (Or.inr hold))
  · intro t' s' ws' h
    dsimp only at h ⊢
    rcases upd_cases h with ⟨_, hval⟩ | ⟨_, hold⟩
    · exact TState.noConfusion hval
    · exact inv.applySynced t' s' ws' hold
  · intro t' s' h
    dsimp only at h ⊢
    rcases upd_cases h with ⟨_, hval⟩ | ⟨_, hold⟩
    · exact TState.noConfusion hval
    · exact inv.resolveSynced t' s' hold
  · intro s' h
    dsimp only at h ⊢
    exact inv.sigSynced s' h
  · intro t' s' h
    dsimp only at h ⊢
    rcases upd_cases h with ⟨_, hval⟩ | ⟨_, hold⟩
    · exact TState.noConfusion hval
    · exact inv.retOkSynced t' s' hold
  · intro s' h
    dsimp only at h ⊢
    exact inv.appliedSynced s' h
  · intro s' h
    dsimp only at h ⊢
    exact inv.failedNotApplied s' h
  · intro t' s' ws' h
    dsimp only at h ⊢
    refine ⟨?_, ?_, ?_⟩ <;> intro heq
    · rcases upd_cases heq with ⟨_, hval⟩ | ⟨_, hold⟩
      · exact TState.noConfusion hval
      · exact (inv.appliedNoWSA t' s' ws' h).1 hold
    · rcases upd_cases heq with ⟨_, hval⟩ | ⟨_, hold⟩
      · injection hval with h1 h2
        subst h1
        rw [happl] at h
        exact Bool.noConfusion h
      · exact (inv.appliedNoWSA t' s' ws' h).2.1 hold
    · rcases upd_cases heq with ⟨_, hval⟩ | ⟨_, hold⟩
      · exact TState.noConfusion hval
      · exact (inv.appliedNoWSA t' s' ws' h).2.2 hold
  · intro t' p' s' h heq
    dsimp only at h heq
    rcases upd_cases heq with ⟨_, hval⟩ | ⟨_, hold⟩
    · exact TState.noConfusion hval
    · exact inv.appliedNoWaiter t' p' s' h hold
  · intro t' s' h hio
    dsimp only at h hio
    by_cases ht' : t' = t
    · subst ht'; rw [upd_self] at hio
      simp only [TState.ioSig, Option.some.injEq] at hio
      subst hio
      rw [hfail] at h
      exact Bool.noConfusion h
    · rw [upd_ne _ _ _ _ ht'] at hio
      exact inv.failedNoRegion t' s' h hio
  · intro t' p' s' h heq
    dsimp only at h heq
    rcases upd_cases heq with ⟨_, hval⟩ | ⟨_, hold⟩
    · exact TState.noConfusion hval
    · exact inv.failedNoWaiter t' p' s' h hold
  · intro s' h
    dsimp only at h ⊢
    exact inv.failedSigFalse s' h

theorem inv_syncOk (σ : Sys) (inv : PipelineInv σ) (t s : Nat) (ws : List Command)
    (ht : σ.tstate t = .leaderSync s ws) :
    PipelineInv
      { σ with
        tstate := upd σ.tstate t (.leaderApply s ws)
        synced := upd σ.synced s true } := by
  have hio_t : (σ.tstate t).ioSig = some s := by rw [ht]; rfl
  have hslt : s < σ.nextSig := inv.regionLt t s hio_t
  have hsigs : σ.signals s = false := inv.regionSigFalse t s hio_t
  have hbatch : ws = σ.submitted s := inv.regionBatch t s ws (Or.inr (Or.inl ht))
  have happl : σ.applied s = false := by
    cases hval : σ.applied s
    · rfl
    · exact absurd ht (inv.appliedNoWSA t s ws hval).2.1
  have hfail : σ.failed s = false := by
    cases hval : σ.failed s
    · rfl
    · exact absurd hio_t (inv.failedNoRegion t s hval)
  have onlyRegion : ∀ t₂ s₂, (σ.tstate t₂).ioSig = some s₂ → t₂ = t := by
    intro t₂ s₂ h
    exact inv.regionUnique t₂ t s₂ s h hio_t
  refine
    { freshSig := ?_, freshFailed := ?_, freshApplied := ?_, waiterLt := ?_,
      regionLt := ?_, dbPendingLt := ?_, dbLeaderLt := ?_, waiterDb := ?_,
      waiterUnique := ?_, plWaiter := ?_, plSigFalse := ?_, regionSigFalse := ?_,
      regionUnique := ?_, regionChain := ?_, regionPending := ?_, plBatch := ?_,
      regionBatch := ?_, applySynced := ?_, resolveSynced := ?_, sigSynced := ?_,
      retOkSynced := ?_, appliedSynced := ?_, failedNotApplied := ?_,
      appliedNoWSA := ?_, appliedNoWaiter := ?_, failedNoRegion := ?_,
      failedNoWaiter := ?_, failedSigFalse := ?_ }
  · intro s' hs
    dsimp only at hs ⊢
    exact inv.freshSig s' hs
  · intro s' hs
    dsimp only at hs ⊢
    exact inv.freshFailed s' hs
  · intro s' hs
    dsimp only at hs ⊢
    exact inv.freshApplied s' hs
  · intro t' p' s' h
    dsimp only at h ⊢
    rcases upd_cases h with ⟨_, hval⟩ | ⟨_, hold⟩
    · exact TState.noConfusion hval
    · exact inv.waiterLt t' p' s' hold
  · intro t' s' h
    dsimp only at h ⊢
    by_cases ht' : t' = t
    · subst ht'; rw [upd_self] at h
      simp only [TState.ioSig, Option.some.injEq] at h
      subst h
      exact hslt
    · rw [upd_ne _ _ _ _ ht'] at h
      exact inv.regionLt t' s' h
  · intro p' h
    dsimp only at h ⊢
    exact inv.dbPendingLt p' h
  · intro ws' s' h
    dsimp only at h ⊢
    exact inv.dbLeaderLt ws' s' h
  · intro t' p' s' h
    dsimp only at h ⊢
    rcases upd_cases h with ⟨_, hval⟩ | ⟨_, hold⟩
    · exact TState.noConfusion hval
    · exact inv.waiterDb t' p' s' hold
  · intro t' t'' p' p'' s' s'' h h'
    dsimp only at h h'
    rcases upd_cases h with ⟨_, hval⟩ | ⟨_, hold⟩
    · exact TState.noConfusion hval
    · rcases upd_cases h' with ⟨_, hval'⟩ | ⟨_, hold'⟩
      · exact TState.noConfusion hval'
      · exact inv.waiterUnique t' t'' p' p'' s' s'' hold hold'
  · intro ws' s' h
    dsimp only at h ⊢
    obtain ⟨tw, pw, hw⟩ := inv.plWaiter ws' s' h
    have htw : tw ≠ t := by
      intro hh
      rw [hh, ht] at hw
      exact TState.noConfusion hw
    refine ⟨tw, pw, ?_⟩
    rw [upd_ne _ _ _ _ htw]
    exact hw
  · intro ws' s' h
    dsimp only at h ⊢
    exact inv.plSigFalse ws' s' h
  · intro t' s' h
    dsimp only at h ⊢
    by_cases ht' : t' = t
    · subst ht'; rw [upd_self] at h
      simp only [TState.ioSig, Option.some.injEq] at h
      subst h
      exact hsigs
    · rw [upd_ne _ _ _ _ ht'] at h
      exact inv.regionSigFalse t' s' h
  · intro t' t'' s' s'' h h'
    dsimp only at h h'
    by_cases h1 : t' = t
    · by_cases h2 : t'' = t
      · rw [h1, h2]
      · rw [upd_ne _ _ _ _ h2] at h'
        rw [h1]
        exact (onlyRegion t'' s'' h').symm ▸ rfl
    · rw [upd_ne _ _ _ _ h1] at h
      by_cases h2 : t'' = t
      · rw [onlyRegion t' s' h, h2]
      · rw [upd_ne _ _ _ _ h2] at h'
        exact inv.regionUnique t' t'' s' s'' h h'
  · intro t' s' t'' p'' s'' hio hwv
    dsimp only at hio hwv
    rcases upd_cases hwv with ⟨_, hval⟩ | ⟨_, hold⟩
    · exact TState.noConfusion hval
    · by_cases ht' : t' = t
      · subst ht'; rw [upd_self] at hio
        simp only [TState.ioSig, Option.some.injEq] at hio
        subst hio
        exact inv.regionChain t' s t'' p'' s'' hio_t hold
      · rw [upd_ne _ _ _ _ ht'] at hio
        exact inv.regionChain t' s' t'' p'' s'' hio hold
  · intro t' s' p' hio hp
    dsimp only at hio hp
    by_cases ht' : t' = t
    · subst ht'; rw [upd_self] at hio
      simp only [TState.ioSig, Option.some.injEq] at hio
      subst hio
      exact inv.regionPending t' s p' hio_t hp
    · rw [upd_ne _ _ _ _ ht'] at hio
      exact inv.regionPending t' s' p' hio hp
  · intro ws' s' h
    dsimp only at h ⊢
    exact inv.plBatch ws' s' h
  · intro t' s' ws' h
    dsimp only at h ⊢
    rcases h with h | h | h
    · rcases upd_cases h with ⟨_, hval⟩ | ⟨_, hold⟩
      · exact TState.noConfusion hval
      · exact inv.regionBatch t' s' ws' (Or.inl hold)
    · rcases upd_cases h with ⟨_, hval⟩ | ⟨_, hold⟩
      · exact TState.noConfusion hval
      · exact inv.regionBatch t' s' ws' (Or.inr (Or.inl hold))
    · rcases upd_cases h with ⟨_, hval⟩ | ⟨_, hold⟩
      · injection hval with h1 h2
        subst h1; subst h2
        exact hbatch
      · exact inv.regionBatch t' s' ws' (Or.inr (Or.inr hold))
  · intro t' s' ws' h
    dsimp only at h ⊢
    rcases upd_cases h with ⟨_, hval⟩ | ⟨_, hold⟩
    · injection hval with h1 h2
      subst h1
      exact upd_self _ _ _
    · exact upd_true_mono (inv.applySynced t' s' ws' hold)
  · intro t' s' h
    dsimp only at h ⊢
    rcases upd_cases h with ⟨_, hval⟩ | ⟨_, hold⟩
    · exact TState.noConfusion hval
    · exact upd_true_mono (inv.resolveSynced t' s' hold)
  · intro s' h
    dsimp only at h ⊢
    exact upd_true_mono (inv.sigSynced s' h)
  · intro t' s' h
    dsimp only at h ⊢
    rcases upd_cases h with ⟨_, hval⟩ | ⟨_, hold⟩
    · exact TState.noConfusion hval
    · exact upd_true_mono (inv.retOkSynced t' s' hold)
  · intro s' h
    dsimp only at h ⊢
    exact upd_true_mono (inv.appliedSynced s' h)
  · intro s' h
    dsimp only at h ⊢
    exact inv.failedNotApplied s' h
  · intro t' s' ws' h
    dsimp only at h ⊢
    refine ⟨?_, ?_, ?_⟩ <;> intro heq
    · rcases upd_cases heq with ⟨_, hval⟩ | ⟨_, hold⟩
      · exact TState.noConfusion hval
      · exact (inv.appliedNoWSA t' s' ws' h).1 hold
    · rcases upd_cases heq with ⟨_, hval⟩ | ⟨_, hold⟩
      · exact TState.noConfusion hval
      · exact (inv.appliedNoWSA t' s' ws' h).2.1 hold
    · rcases upd_cases heq with ⟨_, hval⟩ | ⟨_, hold⟩
      · injection hval with h1 h2
        subst h1
        rw [happl] at h
        exact Bool.noConfusion h
      · exact (inv.appliedNoWSA t' s' ws' h).2.2 hold
  · intro t' p' s' h heq
    dsimp only at h heq
    rcases upd_cases heq with ⟨_, hval⟩ | ⟨_, hold⟩
    · exact TState.noConfusion hval
    · exact inv.appliedNoWaiter t' p' s' h hold
  · intro t' s' h hio
    dsimp only at h hio
    by_cases ht' : t' = t
    · subst ht'; rw [upd_self] at hio
      simp only [TState.ioSig, Option.some.injEq] at hio
      subst hio
      rw [hfail] at h
      exact Bool.noConfusion h
    · rw [upd_ne _ _ _ _ ht'] at hio
      exact inv.failedNoRegion t' s' h hio
  · intro t' p' s' h heq
    dsimp only at h heq
    rcases upd_cases heq with ⟨_, hval⟩ | ⟨_, hold⟩
    · exact TState.noConfusion hval
    · exact inv.failedNoWaiter t' p' s' h hold
  · intro s' h
    dsimp only at h ⊢
    exact inv.failedSigFalse s' h

theorem inv_writeFail (σ : Sys) (inv : PipelineInv σ) (t s : Nat) (ws : List Command)
    (pre : List Char) (ht : σ.tstate t = .leaderWrite s ws) :
    PipelineInv
      { σ with
        log := σ.log ++ pre
        tstate := upd σ.tstate t (.retErr s)
        failed := upd σ.failed s true } := by
  have hio_t : (σ.tstate t).ioSig = some s := by rw [ht]; rfl
  have hslt : s < σ.nextSig := inv.regionLt t s hio_t
  have hsigs : σ.signals s = false := inv.regionSigFalse t s hio_t
  have happl : σ.applied s = false := by
    cases hval : σ.applied s
    · rfl
    · exact absurd ht (inv.appliedNoWSA t s ws hval).1
  have onlyRegion : ∀ t₂ s₂, (σ.tstate t₂).ioSig = some s₂ → t₂ = t := by
    intro t₂ s₂ h
    exact inv.regionUnique t₂ t s₂ s h hio_t
  have noWaiterS : ∀ t₂ p₂, σ.tstate t₂ ≠ .leaderWait p₂ s := by
    intro t₂ p₂ h
    have h1 := inv.regionChain t s t₂ p₂ s hio_t h
    have h2 := (inv.waiterLt t₂ p₂ s h).1
    omega
  refine
    { freshSig := ?_, freshFailed := ?_, freshApplied := ?_, waiterLt := ?_,
      regionLt := ?_, dbPendingLt := ?_, dbLeaderLt := ?_, waiterDb := ?_,
      waiterUnique := ?_, plWaiter := ?_, plSigFalse := ?_, regionSigFalse := ?_,
      regionUnique := ?_, regionChain := ?_, regionPending := ?_, plBatch := ?_,
      regionBatch := ?_, applySynced := ?_, resolveSynced := ?_, sigSynced := ?_,
      retOkSynced := ?_, appliedSynced := ?_, failedNotApplied := ?_,
      appliedNoWSA := ?_, appliedNoWaiter := ?_, failedNoRegion := ?_,
      failedNoWaiter := ?_, failedSigFalse := ?_ }
  · intro s' hs
    dsimp only at hs ⊢
    exact inv.freshSig s' hs
  · intro s' hs
    dsimp only at hs ⊢
    rw [upd_ne _ _ _ _ (by omega : s' ≠ s)]
    exact inv.freshFailed s' hs
  · intro s' hs
    dsimp only at hs ⊢
    exact inv.freshApplied s' hs
  · intro t' p' s' h
    dsimp only at h ⊢
    rcases upd_cases h with ⟨_, hval⟩ | ⟨_, hold⟩
    · exact TState.noConfusion hval
    · exact inv.waiterLt t' p' s' hold
  · intro t' s' h
    dsimp only at h ⊢
    by_cases ht' : t' = t
    · subst ht'; rw [upd_self] at h
      exact absurd h (by simp [TState.ioSig])
    · rw [upd_ne _ _ _ _ ht'] at h
      exact inv.regionLt t' s' h
  · intro p' h
    dsimp only at h ⊢
    exact inv.dbPendingLt p' h
  · intro ws' s' h
    dsimp only at h ⊢
    exact inv.dbLeaderLt ws' s' h
  · intro t' p' s' h
    dsimp only at h ⊢
    rcases upd_cases h with ⟨_, hval⟩ | ⟨_, hold⟩
    · exact TState.noConfusion hval
    · exact inv.waiterDb t' p' s' hold
  · intro t' t'' p' p'' s' s'' h h'
    dsimp only at h h'
    rcases upd_cases h with ⟨_, hval⟩ | ⟨_, hold⟩
    · exact TState.noConfusion hval
    · rcases upd_cases h' with ⟨_, hval'⟩ | ⟨_, hold'⟩
      · exact TState.noConfusion hval'
      · exact inv.waiterUnique t' t'' p' p'' s' s'' hold hold'
  · intro ws' s' h
    dsimp only at h ⊢
    obtain ⟨tw, pw, hw⟩ := inv.plWaiter ws' s' h
    have htw : tw ≠ t := by
      intro hh
      rw [hh, ht] at hw
      exact TState.noConfusion hw
    refine ⟨tw, pw, ?_⟩
    rw [upd_ne _ _ _ _ htw]
    exact hw
  · intro ws' s' h
    dsimp only at h ⊢
    exact inv.plSigFalse ws' s' h
  · intro t' s' h
    dsimp only at h ⊢
    by_cases ht' : t' = t
    · subst ht'; rw [upd_self] at h
      exact absurd h (by simp [TState.ioSig])
    · rw [upd_ne _ _ _ _ ht'] at h
      exact inv.regionSigFalse t' s' h
  · intro t' t'' s' s'' h h'
    dsimp only at h h'
    by_cases h1 : t' = t
    · subst h1; rw [upd_self] at h
      exact absurd h (by simp [TState.ioSig])
    · rw [upd_ne _ _ _ _ h1] at h
      by_cases h2 : t'' = t
      · subst h2; rw [upd_self] at h'
        exact absurd h' (by simp [TState.ioSig])
      · rw [upd_ne _ _ _ _ h2] at h'
        exact inv.regionUnique t' t'' s' s'' h h'
  · intro t' s' t'' p'' s'' hio hwv
    dsimp only at hio hwv
    rcases upd_cases hwv with ⟨_, hval⟩ | ⟨_, hold⟩
    · exact TState.noConfusion hval
    · by_cases ht' : t' = t
      · subst ht'; rw [upd_self] at hio
        exact absurd hio (by simp [TState.ioSig])
      · rw [upd_ne _ _ _ _ ht'] at hio
        exact inv.regionChain t' s' t'' p'' s'' hio hold
  · intro t' s' p' hio hp
    dsimp only at hio hp
    by_cases ht' : t' = t
    · subst ht'; rw [upd_self] at hio
      exact absurd hio (by simp [TState.ioSig])
    · rw [upd_ne _ _ _ _ ht'] at hio
      exact inv.regionPending t' s' p' hio hp
  · intro ws' s' h
    dsimp only at h ⊢
    exact inv.plBatch ws' s' h
  · intro t' s' ws' h
    dsimp only at h ⊢
    rcases h with h | h | h
    · rcases upd_cases h with ⟨_, hval⟩ | ⟨_, hold⟩
      · exact TState.noConfusion hval
      · exact inv.regionBatch t' s' ws' (Or.inl hold)
    · rcases upd_cases h with ⟨_, hval⟩ | ⟨_, hold⟩
      · exact TState.noConfusion hval
      · exact inv.regionBatch t' s' ws' (Or.inr (Or.inl hold))
    · rcases upd_cases h with ⟨_, hval⟩ | ⟨_, hold⟩
      · exact TState.noConfusion hval
      · exact inv.regionBatch t' s' ws' (Or.inr (Or.inr hold))
  · intro t' s' ws' h
    dsimp only at h ⊢
    rcases upd_cases h with ⟨_, hval⟩ | ⟨_, hold⟩
    · exact TState.noConfusion hval
    · exact inv.applySynced t' s' ws' hold
  · intro t' s' h
    dsimp only at h ⊢
    rcases upd_cases h with ⟨_, hval⟩ | ⟨_, hold⟩
    · exact TState.noConfusion hval
    · exact inv.resolveSynced t' s' hold
  · intro s' h
    dsimp only at h ⊢
    exact inv.sigSynced s' h
  · intro t' s' h
    dsimp only at h ⊢
    rcases upd_cases h with ⟨_, hval⟩ | ⟨_, hold⟩
    · exact TState.noConfusion hval
    · exact inv.retOkSynced t' s' hold
  · intro s' h
    dsimp only at h ⊢
    exact inv.appliedSynced s' h
  · intro s' h
    dsimp only at h ⊢
    rcases upd_cases h with ⟨hse, _⟩ | ⟨_, hold⟩
    · subst hse
      exact happl
    · exact inv.failedNotApplied s' hold
  · intro t' s' ws' h
    dsimp only at h ⊢
    refine ⟨?_, ?_, ?_⟩ <;> intro heq
    · rcases upd_cases heq with ⟨_, hval⟩ | ⟨_, hold⟩
      · exact TState.noConfusion hval
      · exact (inv.appliedNoWSA t' s' ws' h).1 hold
    · rcases upd_cases heq with ⟨_, hval⟩ | ⟨_, hold⟩
      · exact TState.noConfusion hval
      · exact (inv.appliedNoWSA t' s' ws' h).2.1 hold
    · rcases upd_cases heq with ⟨_, hval⟩ | ⟨_, hold⟩
      · exact TState.noConfusion hval
      · exact (inv.appliedNoWSA t' s' ws' h).2.2 hold
  · intro t' p' s' h heq
    dsimp only at h heq
    rcases upd_cases heq with ⟨_, hval⟩ | ⟨_, hold⟩
    · exact TState.noConfusion hval
    · exact inv.appliedNoWaiter t' p' s' h hold
  · intro t' s' h hio
    dsimp only at h hio
    by_cases ht' : t' = t
    · subst ht'; rw [upd_self] at hio
      exact absurd hio (by simp [TState.ioSig])
    · rw [upd_ne _ _ _ _ ht'] at hio
      rcases upd_cases h with ⟨hse, _⟩ | ⟨_, hold⟩
      · subst hse
        exact absurd (onlyRegion t' s' hio) ht'
      · exact inv.failedNoRegion t' s' hold hio
  · intro t' p' s' h heq
    dsimp only at h heq
    rcases upd_cases heq with ⟨_, hval⟩ | ⟨_, hold⟩
    · exact TState.noConfusion hval
    · rcases upd_cases h with ⟨hse, _⟩ | ⟨_, hfold⟩
      · subst hse
        exact noWaiterS t' p' hold
      · exact inv.failedNoWaiter t' p' s' hfold hold
  · intro s' h
    dsimp only at h ⊢
    rcases upd_cases h with ⟨hse, _⟩ | ⟨_, hold⟩
    · subst hse
      exact hsigs
    · exact inv.failedSigFalse s' hold

theorem inv_syncFail (σ : Sys) (inv : PipelineInv σ) (t s : Nat) (ws : List Command)
    (ht : σ.tstate t = .leaderSync s ws) :
    PipelineInv
      { σ with
        tstate := upd σ.tstate t (.retErr s)
        failed := upd σ.failed s true } := by
  have hio_t : (σ.tstate t).ioSig = some s := by rw [ht]; rfl
  have hslt : s < σ.nextSig := inv.regionLt t s hio_t
  have hsigs : σ.signals s = false := inv.regionSigFalse t s hio_t
  have happl : σ.applied s = false := by
    cases hval : σ.applied s
    · rfl
    · exact absurd ht (inv.appliedNoWSA t s ws hval).2.1
  have onlyRegion : ∀ t₂ s₂, (σ.tstate t₂).ioSig = some s₂ → t₂ = t := by
    intro t₂ s₂ h
    exact inv.regionUnique t₂ t s₂ s h hio_t
  have noWaiterS : ∀ t₂ p₂, σ.tstate t₂ ≠ .leaderWait p₂ s := by
    intro t₂ p₂ h
    have h1 := inv.regionChain t s t₂ p₂ s hio_t h
    have h2 := (inv.waiterLt t₂ p₂ s h).1
    omega
  refine
    { freshSig := ?_, freshFailed := ?_, freshApplied := ?_, waiterLt := ?_,
      regionLt := ?_, dbPendingLt := ?_, dbLeaderLt := ?_, waiterDb := ?_,
      waiterUnique := ?_, plWaiter := ?_, plSigFalse := ?_, regionSigFalse := ?_,
      regionUnique := ?_, regionChain := ?_, regionPending := ?_, plBatch := ?_,
      regionBatch := ?_, applySynced := ?_, resolveSynced := ?_, sigSynced := ?_,
      retOkSynced := ?_, appliedSynced := ?_, failedNotApplied := ?_,
      appliedNoWSA := ?_, appliedNoWaiter := ?_, failedNoRegion := ?_,
      failedNoWaiter := ?_, failedSigFalse := ?_ }
  · intro s' hs
    dsimp only at hs ⊢
    exact inv.freshSig s' hs
  · intro s' hs
    dsimp only at hs ⊢
    rw [upd_ne _ _ _ _ (by omega : s' ≠ s)]
    exact inv.freshFailed s' hs
  · intro s' hs
    dsimp only at hs ⊢
    exact inv.freshApplied s' hs
  · intro t' p' s' h
    dsimp only at h ⊢
    rcases upd_cases h with ⟨_, hval⟩ | ⟨_, hold⟩
    · exact TState.noConfusion hval
    · exact inv.waiterLt t' p' s' hold
  · intro t' s' h
    dsimp only at h ⊢
    by_cases ht' : t' = t
    · subst ht'; rw [upd_self] at h
      exact absurd h (by simp [TState.ioSig])
    · rw [upd_ne _ _ _ _ ht'] at h
      exact inv.regionLt t' s' h
  · intro p' h
    dsimp only at h ⊢
    exact inv.dbPendingLt p' h
  · intro ws' s' h
    dsimp only at h ⊢
    exact inv.dbLeaderLt ws' s' h
  · intro t' p' s' h
    dsimp only at h ⊢
    rcases upd_cases h with ⟨_, hval⟩ | ⟨_, hold⟩
    · exact TState.noConfusion hval
    · exact inv.waiterDb t' p' s' hold
  · intro t' t'' p' p'' s' s'' h h'
    dsimp only at h h'
    rcases upd_cases h with ⟨_, hval⟩ | ⟨_, hold⟩
    · exact TState.noConfusion hval
    · rcases upd_cases h' with ⟨_, hval'⟩ | ⟨_, hold'⟩
      · exact TState.noConfusion hval'
      · exact inv.waiterUnique t' t'' p' p'' s' s'' hold hold'
  · intro ws' s' h
    dsimp only at h ⊢
    obtain ⟨tw, pw, hw⟩ := inv.plWaiter ws' s' h
    have htw : tw ≠ t := by
      intro hh
      rw [hh, ht] at hw
      exact TState.noConfusion hw
    refine ⟨tw, pw, ?_⟩
    rw [upd_ne _ _ _ _ htw]
    exact hw
  · intro ws' s' h
    dsimp only at h ⊢
    exact inv.plSigFalse ws' s' h
  · intro t' s' h
    dsimp only at h ⊢
    by_cases ht' : t' = t
    · subst ht'; rw [upd_self] at h
      exact absurd h (by simp [TState.ioSig])
    · rw [upd_ne _ _ _ _ ht'] at h
      exact inv.regionSigFalse t' s' h
  · intro t' t'' s' s'' h h'
    dsimp only at h h'
    by_cases h1 : t' = t
    · subst h1; rw [upd_self] at h
      exact absurd h (by simp [TState.ioSig])
    · rw [upd_ne _ _ _ _ h1] at h
      by_cases h2 : t'' = t
      · subst h2; rw [upd_self] at h'
        exact absurd h' (by simp [TState.ioSig])
      · rw [upd_ne _ _ _ _ h2] at h'
        exact inv.regionUnique t' t'' s' s'' h h'
  · intro t' s' t'' p'' s'' hio hwv
    dsimp only at hio hwv
    rcases upd_cases hwv with ⟨_, hval⟩ | ⟨_, hold⟩
    · exact TState.noConfusion hval
    · by_cases ht' : t' = t
      · subst ht'; rw [upd_self] at hio
        exact absurd hio (by simp [TState.ioSig])
      · rw [upd_ne _ _ _ _ ht'] at hio
        exact inv.regionChain t' s' t'' p'' s'' hio hold
  · intro t' s' p' hio hp
    dsimp only at hio hp
    by_cases ht' : t' = t
    · subst ht'; rw [upd_self] at hio
      exact absurd hio (by simp [TState.ioSig])
    · rw [upd_ne _ _ _ _ ht'] at hio
      exact inv.regionPending t' s' p' hio hp
  · intro ws' s' h
    dsimp only at h ⊢
    exact inv.plBatch ws' s' h
  · intro t' s' ws' h
    dsimp only at h ⊢
    rcases h with h | h | h
    · rcases upd_cases h with ⟨_, hval⟩ | ⟨_, hold⟩
      · exact TState.noConfusion hval
      · exact inv.regionBatch t' s' ws' (Or.inl hold)
    · rcases upd_cases h with ⟨_, hval⟩ | ⟨_, hold⟩
      · exact TState.noConfusion hval
      · exact inv.regionBatch t' s' ws' (Or.inr (Or.inl hold))
    · rcases upd_cases h with ⟨_, hval⟩ | ⟨_, hold⟩
      · exact TState.noConfusion hval
      · exact inv.regionBatch t' s' ws' (Or.inr (Or.inr hold))
  · intro t' s' ws' h
    dsimp only at h ⊢
    rcases upd_cases h with ⟨_, hval⟩ | ⟨_, hold⟩
    · exact TState.noConfusion hval
    · exact inv.applySynced t' s' ws' hold
  · intro t' s' h
    dsimp only at h ⊢
    rcases upd_cases h with ⟨_, hval⟩ | ⟨_, hold⟩
    · exact TState.noConfusion hval
    · exact inv.resolveSynced t' s' hold
  · intro s' h
    dsimp only at h ⊢
    exact inv.sigSynced s' h
  · intro t' s' h
    dsimp only at h ⊢
    rcases upd_cases h with ⟨_, hval⟩ | ⟨_, hold⟩
    · exact TState.noConfusion hval
    · exact inv.retOkSynced t' s' hold
  · intro s' h
    dsimp only at h ⊢
    exact inv.appliedSynced s' h
  · intro s' h
    dsimp only at h ⊢
    rcases upd_cases h with ⟨hse, _⟩ | ⟨_, hold⟩
    · subst hse
      exact happl
    · exact inv.failedNotApplied s' hold
  · intro t' s' ws' h
    dsimp only at h ⊢
    refine ⟨?_, ?_, ?_⟩ <;> intro heq
    · rcases upd_cases heq with ⟨_, hval⟩ | ⟨_, hold⟩
      · exact TState.noConfusion hval
      · exact (inv.appliedNoWSA t' s' ws' h).1 hold
    · rcases upd_cases heq with ⟨_, hval⟩ | ⟨_, hold⟩
      · exact TState.noConfusion hval
      · exact (inv.appliedNoWSA t' s' ws' h).2.1 hold
    · rcases upd_cases heq with ⟨_, hval⟩ | ⟨_, hold⟩
      · exact TState.noConfusion hval
      · exact (inv.appliedNoWSA t' s' ws' h).2.2 hold
  · intro t' p' s' h heq
    dsimp only at h heq
    rcases upd_cases heq with ⟨_, hval⟩ | ⟨_, hold⟩
    · exact TState.noConfusion hval
    · exact inv.appliedNoWaiter t' p' s' h hold
  · intro t' s' h hio
    dsimp only at h hio
    by_cases ht' : t' = t
    · subst ht'; rw [upd_self] at hio
      exact absurd hio (by simp [TState.ioSig])
    · rw [upd_ne _ _ _ _ ht'] at hio
      rcases upd_cases h with ⟨hse, _⟩ | ⟨_, hold⟩
      · subst hse
        exact absurd (onlyRegion t' s' hio) ht'
      · exact inv.failedNoRegion t' s' hold hio
  · intro t' p' s' h heq
    dsimp only at h heq
    rcases upd_cases heq with ⟨_, hval⟩ | ⟨_, hold⟩
    · exact TState.noConfusion hval
    · rcases upd_cases h with ⟨hse, _⟩ | ⟨_, hfold⟩
      · subst hse
        exact noWaiterS t' p' hold
      · exact inv.failedNoWaiter t' p' s' hfold hold
  · intro s' h
    dsimp only at h ⊢
    rcases upd_cases h with ⟨hse, _⟩ | ⟨_, hold⟩
    · subst hse
      exact hsigs
    · exact inv.failedSigFalse s' hold

theorem inv_applyBatch (σ : Sys) (inv : PipelineInv σ) (t s : Nat) (ws : List Command)
    (ht : σ.tstate t = .leaderApply s ws) :
    PipelineInv
      { σ with
        memtable := ws.foldl apply_command_to_memtable σ.memtable
        tstate := upd σ.tstate t (.leaderResolve s)
        applied := upd σ.applied s true } := by
  have hio_t : (σ.tstate t).ioSig = some s := by rw [ht]; rfl
  have hslt : s < σ.nextSig := inv.regionLt t s hio_t
  have hsigs : σ.signals s = false := inv.regionSigFalse t s hio_t
  have hsynced : σ.synced s = true := inv.applySynced t s ws ht
  have hfail : σ.failed s = false := by
    cases hval : σ.failed s
    · rfl
    · exact absurd hio_t (inv.failedNoRegion t s hval)
  have onlyRegion : ∀ t₂ s₂, (σ.tstate t₂).ioSig = some s₂ → t₂ = t := by
    intro t₂ s₂ h
    exact inv.regionUnique t₂ t s₂ s h hio_t
  have noWaiterS : ∀ t₂ p₂, σ.tstate t₂ ≠ .leaderWait p₂ s := by
    intro t₂ p₂ h
    have h1 := inv.regionChain t s t₂ p₂ s hio_t h
    have h2 := (inv.waiterLt t₂ p₂ s h).1
    omega
  refine
    { freshSig := ?_, freshFailed := ?_, freshApplied := ?_, waiterLt := ?_,
      regionLt := ?_, dbPendingLt := ?_, dbLeaderLt := ?_, waiterDb := ?_,
      waiterUnique := ?_, plWaiter := ?_, plSigFalse := ?_, regionSigFalse := ?_,
      regionUnique := ?_, regionChain := ?_, regionPending := ?_, plBatch := ?_,
      regionBatch := ?_, applySynced := ?_, resolveSynced := ?_, sigSynced := ?_,
      retOkSynced := ?_, appliedSynced := ?_, failedNotApplied := ?_,
      appliedNoWSA := ?_, appliedNoWaiter := ?_, failedNoRegion := ?_,
      failedNoWaiter := ?_, failedSigFalse := ?_ }
  · intro s' hs
    dsimp only at hs ⊢
    exact inv.freshSig s' hs
  · intro s' hs
    dsimp only at hs ⊢
    exact inv.freshFailed s' hs
  · intro s' hs
    dsimp only at hs ⊢
    rw [upd_ne _ _ _ _ (by omega : s' ≠ s)]
    exact inv.freshApplied s' hs
  · intro t' p' s' h
    dsimp only at h ⊢
    rcases upd_cases h with ⟨_, hval⟩ | ⟨_, hold⟩
    · exact TState.noConfusion hval
    · exact inv.waiterLt t' p' s' hold
  · intro t' s' h
    dsimp only at h ⊢
    by_cases ht' : t' = t
    · subst ht'; rw [upd_self] at h
      simp only [TState.ioSig, Option.some.injEq] at h
      subst h
      exact hslt
    · rw [upd_ne _ _ _ _ ht'] at h
      exact inv.regionLt t' s' h
  · intro p' h
    dsimp only at h ⊢
    exact inv.dbPendingLt p' h
  · intro ws' s' h
    dsimp only at h ⊢
    exact inv.dbLeaderLt ws' s' h
  · intro t' p' s' h
    dsimp only at h ⊢
    rcases upd_cases h with ⟨_, hval⟩ | ⟨_, hold⟩
    · exact TState.noConfusion hval
    · exact inv.waiterDb t' p' s' hold
  · intro t' t'' p' p'' s' s'' h h'
    dsimp only at h h'
    rcases upd_cases h with ⟨_, hval⟩ | ⟨_, hold⟩
    · exact TState.noConfusion hval
    · rcases upd_cases h' with ⟨_, hval'⟩ | ⟨_, hold'⟩
      · exact TState.noConfusion hval'
      · exact inv.waiterUnique t' t'' p' p'' s' s'' hold hold'
  · intro ws' s' h
    dsimp only at h ⊢
    obtain ⟨tw, pw, hw⟩ := inv.plWaiter ws' s' h
    have htw : tw ≠ t := by
      intro hh
      rw [hh, ht] at hw
      exact TState.noConfusion hw
    refine ⟨tw, pw, ?_⟩
    rw [upd_ne _ _ _ _ htw]
    exact hw
  · intro ws' s' h
    dsimp only at h ⊢
    exact inv.plSigFalse ws' s' h
  · intro t' s' h
    dsimp only at h ⊢
    by_cases ht' : t' = t
    · subst ht'; rw [upd_self] at h
      simp only [TState.ioSig, Option.some.injEq] at h
      subst h
      exact hsigs
    · rw [upd_ne _ _ _ _ ht'] at h
      exact inv.regionSigFalse t' s' h
  · intro t' t'' s' s'' h h'
    dsimp only at h h'
    by_cases h1 : t' = t
    · by_cases h2 : t'' = t
      · rw [h1, h2]
      · rw [upd_ne _ _ _ _ h2] at h'
        rw [h1]
        exact (onlyRegion t'' s'' h').symm ▸ rfl
    · rw [upd_ne _ _ _ _ h1] at h
      by_cases h2 : t'' = t
      · rw [onlyRegion t' s' h, h2]
      · rw [upd_ne _ _ _ _ h2] at h'
        exact inv.regionUnique t' t'' s' s'' h h'
  · intro t' s' t'' p'' s'' hio hwv
    dsimp only at hio hwv
    rcases upd_cases hwv with ⟨_, hval⟩ | ⟨_, hold⟩
    · exact TState.noConfusion hval
    · by_cases ht' : t' = t
      · subst ht'; rw [upd_self] at hio
        simp only [TState.ioSig, Option.some.injEq] at hio
        subst hio
        exact inv.regionChain t' s t'' p'' s'' hio_t hold
      · rw [upd_ne _ _ _ _ ht'] at hio
        exact inv.regionChain t' s' t'' p'' s'' hio hold
  · intro t' s' p' hio hp
    dsimp only at hio hp
    by_cases ht' : t' = t
    · subst ht'; rw [upd_self] at hio
      simp only [TState.ioSig, Option.some.injEq] at hio
      subst hio
      exact inv.regionPending t' s p' hio_t hp
    · rw [upd_ne _ _ _ _ ht'] at hio
      exact inv.regionPending t' s' p' hio hp
  · intro ws' s' h
    dsimp only at h ⊢
    exact inv.plBatch ws' s' h
  · intro t' s' ws' h
    dsimp only at h ⊢
    rcases h with h | h | h
    · rcases upd_cases h with ⟨_, hval⟩ | ⟨_, hold⟩
      · exact TState.noConfusion hval
      · exact inv.regionBatch t' s' ws' (Or.inl hold)
    · rcases upd_cases h with ⟨_, hval⟩ | ⟨_, hold⟩
      · exact TState.noConfusion hval
      · exact inv.regionBatch t' s' ws' (Or.inr (Or.inl hold))
    · rcases upd_cases h with ⟨_, hval⟩ | ⟨_, hold⟩
      · exact TState.noConfusion hval
      · exact inv.regionBatch t' s' ws' (Or.inr (Or.inr hold))
  · intro t' s' ws' h
    dsimp only at h ⊢
    rcases upd_cases h with ⟨_, hval⟩ | ⟨_, hold⟩
    · exact TState.noConfusion hval
    · exact inv.applySynced t' s' ws' hold
  · intro t' s' h
    dsimp only at h ⊢
    rcases upd_cases h with ⟨_, hval⟩ | ⟨_, hold⟩
    · injection hval with h1
      subst h1
      exact hsynced
    · exact inv.resolveSynced t' s' hold
  · intro s' h
    dsimp only at h ⊢
    exact inv.sigSynced s' h
  · intro t' s' h
    dsimp only at h ⊢
    rcases upd_cases h with ⟨_, hval⟩ | ⟨_, hold⟩
    · exact TState.noConfusion hval
    · exact inv.retOkSynced t' s' hold
  · intro s' h
    dsimp only at h ⊢
    rcases upd_cases h with ⟨hse, _⟩ | ⟨_, hold⟩
    · subst hse
      exact hsynced
    · exact inv.appliedSynced s' hold
  · intro s' h
    dsimp only at h ⊢
    by_cases hs' : s' = s
    · subst hs'
      rw [hfail] at h
      exact Bool.noConfusion h
    · rw [upd_ne _ _ _ _ hs']
      exact inv.failedNotApplied s' h
  · intro t' s' ws' h
    dsimp only at h ⊢
    refine ⟨?_, ?_, ?_⟩ <;> intro heq
    · rcases upd_cases heq with ⟨_, hval⟩ | ⟨hne, hold⟩
      · exact TState.noConfusion hval
      · rcases upd_cases h with ⟨hse, _⟩ | ⟨_, haold⟩
        · subst hse
          have hio' : (σ.tstate t').ioSig = some s' := by rw [hold]; rfl
          exact absurd (onlyRegion t' s' hio') hne
        · exact (inv.appliedNoWSA t' s' ws' haold).1 hold
    · rcases upd_cases heq with ⟨_, hval⟩ | ⟨hne, hold⟩
      · exact TState.noConfusion hval
      · rcases upd_cases h with ⟨hse, _⟩ | ⟨_, haold⟩
        · subst hse
          have hio' : (σ.tstate t').ioSig = some s' := by rw [hold]; rfl
          exact absurd (onlyRegion t' s' hio') hne
        · exact (inv.appliedNoWSA t' s' ws' haold).2.1 hold
    · rcases upd_cases heq with ⟨_, hval⟩ | ⟨hne, hold⟩
      · exact TState.noConfusion hval
      · rcases upd_cases h with ⟨hse, _⟩ | ⟨_, haold⟩
        · subst hse
          have hio' : (σ.tstate t').ioSig = some s' := by rw [hold]; rfl
          exact absurd (onlyRegion t' s' hio') hne
        · exact (inv.appliedNoWSA t' s' ws' haold).2.2 hold
  · intro t' p' s' h heq
    dsimp only at h heq
    rcases upd_cases heq with ⟨_, hval⟩ | ⟨_, hold⟩
    · exact TState.noConfusion hval
    · rcases upd_cases h with ⟨hse, _⟩ | ⟨_, haold⟩
      · subst hse
        exact noWaiterS t' p' hold
      · exact inv.appliedNoWaiter t' p' s' haold hold
  · intro t' s' h hio
    dsimp only at h hio
    by_cases ht' : t' = t
    · subst ht'; rw [upd_self] at hio
      simp only [TState.ioSig, Option.some.injEq] at hio
      subst hio
      rw [hfail] at h
      exact Bool.noConfusion h
    · rw [upd_ne _ _ _ _ ht'] at hio
      exact inv.failedNoRegion t' s' h hio
  · intro t' p' s' h heq
    dsimp only at h heq
    rcases upd_cases heq with ⟨_, hval⟩ | ⟨_, hold⟩
    · exact TState.noConfusion hval
    · exact inv.failedNoWaiter t' p' s' h hold
  · intro s' h
    dsimp only at h ⊢
    exact inv.failedSigFalse s' h

theorem inv_resolve (σ : Sys) (inv : PipelineInv σ) (t s : Nat)
    (ht : σ.tstate t = .leaderResolve s) :
    PipelineInv
      { σ with
        signals := upd σ.signals s true
        tstate := upd σ.tstate t (.retOk s) } := by
  have hio_t : (σ.tstate t).ioSig = some s := by rw [ht]; rfl
  have hslt : s < σ.nextSig := inv.regionLt t s hio_t
  have hsynced : σ.synced s = true := inv.resolveSynced t s ht
  have hfail : σ.failed s = false := by
    cases hval : σ.failed s
    · rfl
    · exact absurd hio_t (inv.failedNoRegion t s hval)
  have onlyRegion : ∀ t₂ s₂, (σ.tstate t₂).ioSig = some s₂ → t₂ = t := by
    intro t₂ s₂ h
    exact inv.regionUnique t₂ t s₂ s h hio_t
  have plNe : ∀ ws' s', σ.dbState = .pendingLeader ws' s' → s' ≠ s := by
    intro ws' s' h hq
    obtain ⟨tw, pw, hw⟩ := inv.plWaiter ws' s' h
    have h1 := inv.regionChain t s tw pw s' hio_t hw
    have h2 := (inv.waiterLt tw pw s' hw).1
    omega
  refine
    { freshSig := ?_, freshFailed := ?_, freshApplied := ?_, waiterLt := ?_,
      regionLt := ?_, dbPendingLt := ?_, dbLeaderLt := ?_, waiterDb := ?_,
      waiterUnique := ?_, plWaiter := ?_, plSigFalse := ?_, regionSigFalse := ?_,
      regionUnique := ?_, regionChain := ?_, regionPending := ?_, plBatch := ?_,
      regionBatch := ?_, applySynced := ?_, resolveSynced := ?_, sigSynced := ?_,
      retOkSynced := ?_, appliedSynced := ?_, failedNotApplied := ?_,
      appliedNoWSA := ?_, appliedNoWaiter := ?_, failedNoRegion := ?_,
      failedNoWaiter := ?_, failedSigFalse := ?_ }
  · intro s' hs
    dsimp only at hs ⊢
    rw [upd_ne _ _ _ _ (by omega : s' ≠ s)]
    exact inv.freshSig s' hs
  · intro s' hs
    dsimp only at hs ⊢
    exact inv.freshFailed s' hs
  · intro s' hs
    dsimp only at hs ⊢
    exact inv.freshApplied s' hs
  · intro t' p' s' h
    dsimp only at h ⊢
    rcases upd_cases h with ⟨_, hval⟩ | ⟨_, hold⟩
    · exact TState.noConfusion hval
    · exact inv.waiterLt t' p' s' hold
  · intro t' s' h
    dsimp only at h ⊢
    by_cases ht' : t' = t
    · subst ht'; rw [upd_self] at h
      exact absurd h (by simp [TState.ioSig])
    · rw [upd_ne _ _ _ _ ht'] at h
      exact inv.regionLt t' s' h
  · intro p' h
    dsimp only at h ⊢
    exact inv.dbPendingLt p' h
  · intro ws' s' h
    dsimp only at h ⊢
    exact inv.dbLeaderLt ws' s' h
  · intro t' p' s' h
    dsimp only at h ⊢
    rcases upd_cases h with ⟨_, hval⟩ | ⟨_, hold⟩
    · exact TState.noConfusion hval
    · exact inv.waiterDb t' p' s' hold
  · intro t' t'' p' p'' s' s'' h h'
    dsimp only at h h'
    rcases upd_cases h with ⟨_, hval⟩ | ⟨_, hold⟩
    · exact TState.noConfusion hval
    · rcases upd_cases h' with ⟨_, hval'⟩ | ⟨_, hold'⟩
      · exact TState.noConfusion hval'
      · exact inv.waiterUnique t' t'' p' p'' s' s'' hold hold'
  · intro ws' s' h
    dsimp only at h ⊢
    obtain ⟨tw, pw, hw⟩ := inv.plWaiter ws' s' h
    have htw : tw ≠ t := by
      intro hh
      rw [hh, ht] at hw
      exact TState.noConfusion hw
    refine ⟨tw, pw, ?_⟩
    rw [upd_ne _ _ _ _ htw]
    exact hw
  · intro ws' s' h
    dsimp only at h ⊢
    rw [upd_ne _ _ _ _ (plNe ws' s' h)]
    exact inv.plSigFalse ws' s' h
  · intro t' s' h
    dsimp only at h ⊢
    by_cases ht' : t' = t
    · subst ht'; rw [upd_self] at h
      exact absurd h (by simp [TState.ioSig])
    · rw [upd_ne _ _ _ _ ht'] at h
      exact absurd (onlyRegion t' s' h) ht'
  · intro t' t'' s' s'' h h'
    dsimp only at h h'
    by_cases h1 : t' = t
    · subst h1; rw [upd_self] at h
      exact absurd h (by simp [TState.ioSig])
    · rw [upd_ne _ _ _ _ h1] at h
      by_cases h2 : t'' = t
      · subst h2; rw [upd_self] at h'
        exact absurd h' (by simp [TState.ioSig])
      · rw [upd_ne _ _ _ _ h2] at h'
        exact inv.regionUnique t' t'' s' s'' h h'
  · intro t' s' t'' p'' s'' hio hwv
    dsimp only at hio hwv
    rcases upd_cases hwv with ⟨_, hval⟩ | ⟨_, hold⟩
    · exact TState.noConfusion hval
    · by_cases ht' : t' = t
      · subst ht'; rw [upd_self] at hio
        exact absurd hio (by simp [TState.ioSig])
      · rw [upd_ne _ _ _ _ ht'] at hio
        exact inv.regionChain t' s' t'' p'' s'' hio hold
  · intro t' s' p' hio hp
    dsimp only at hio hp
    by_cases ht' : t' = t
    · subst ht'; rw [upd_self] at hio
      exact absurd hio (by simp [TState.ioSig])
    · rw [upd_ne _ _ _ _ ht'] at hio
      exact inv.regionPending t' s' p' hio hp
  · intro ws' s' h
    dsimp only at h ⊢
    exact inv.plBatch ws' s' h
  · intro t' s' ws' h
    dsimp only at h ⊢
    rcases h with h | h | h
    · rcases upd_cases h with ⟨_, hval⟩ | ⟨_, hold⟩
      · exact TState.noConfusion hval
      · exact inv.regionBatch t' s' ws' (Or.inl hold)
    · rcases upd_cases h with ⟨_, hval⟩ | ⟨_, hold⟩
      · exact TState.noConfusion hval
      · exact inv.regionBatch t' s' ws' (Or.inr (Or.inl hold))
    · rcases upd_cases h with ⟨_, hval⟩ | ⟨_, hold⟩
      · exact TState.noConfusion hval
      · exact inv.regionBatch t' s' ws' (Or.inr (Or.inr hold))
  · intro t' s' ws' h
    dsimp only at h ⊢
    rcases upd_cases h with ⟨_, hval⟩ | ⟨_, hold⟩
    · exact TState.noConfusion hval
    · exact inv.applySynced t' s' ws' hold
  · intro t' s' h
    dsimp only at h ⊢
    rcases upd_cases h with ⟨_, hval⟩ | ⟨_, hold⟩
    · exact TState.noConfusion hval
    · exact inv.resolveSynced t' s' hold
  · intro s' h
    dsimp only at h ⊢
    rcases upd_cases h with ⟨hse, _⟩ | ⟨_, hold⟩
    · subst hse
      exact hsynced
    · exact inv.sigSynced s' hold
  · intro t' s' h
    dsimp only at h ⊢
    rcases upd_cases h with ⟨_, hval⟩ | ⟨_, hold⟩
    · injection hval with h1
      subst h1
      exact hsynced
    · exact inv.retOkSynced t' s' hold
  · intro s' h
    dsimp only at h ⊢
    exact inv.appliedSynced s' h
  · intro s' h
    dsimp only at h ⊢
    exact inv.failedNotApplied s' h
  · intro t' s' ws' h
    dsimp only at h ⊢
    refine ⟨?_, ?_, ?_⟩ <;> intro heq
    · rcases upd_cases heq with ⟨_, hval⟩ | ⟨_, hold⟩
      · exact TState.noConfusion hval
      · exact (inv.appliedNoWSA t' s' ws' h).1 hold
    · rcases upd_cases heq with ⟨_, hval⟩ | ⟨_, hold⟩
      · exact TState.noConfusion hval
      · exact (inv.appliedNoWSA t' s' ws' h).2.1 hold
    · rcases upd_cases heq with ⟨_, hval⟩ | ⟨_, hold⟩
      · exact TState.noConfusion hval
      · exact (inv.appliedNoWSA t' s' ws' h).2.2 hold
  · intro t' p' s' h heq
    dsimp only at h heq
    rcases upd_cases heq with ⟨_, hval⟩ | ⟨_, hold⟩
    · exact TState.noConfusion hval
    · exact inv.appliedNoWaiter t' p' s' h hold
  · intro t' s' h hio
    dsimp only at h hio
    by_cases ht' : t' = t
    · subst ht'; rw [upd_self] at hio
      exact absurd hio (by simp [TState.ioSig])
    · rw [upd_ne _ _ _ _ ht'] at hio
      exact inv.failedNoRegion t' s' h hio
  · intro t' p' s' h heq
    dsimp only at h heq
    rcases upd_cases heq with ⟨_, hval⟩ | ⟨_, hold⟩
    · exact TState.noConfusion hval
    · exact inv.failedNoWaiter t' p' s' h hold
  · intro s' h
    dsimp only at h ⊢
    by_cases hs' : s' = s
    · subst hs'
      rw [hfail] at h
      exact Bool.noConfusion h
    · rw [upd_ne _ _ _ _ hs']
      exact inv.failedSigFalse s' h

theorem inv_followerRet (σ : Sys) (inv : PipelineInv σ) (t s : Nat)
    (ht : σ.tstate t = .followerWait s)
    (hsig : σ.signals s = true) :
    PipelineInv { σ with tstate := upd σ.tstate t (.retOk s) } := by
  have hsynced : σ.synced s = true := inv.sigSynced s hsig
  refine
    { freshSig := ?_, freshFailed := ?_, freshApplied := ?_, waiterLt := ?_,
      regionLt := ?_, dbPendingLt := ?_, dbLeaderLt := ?_, waiterDb := ?_,
      waiterUnique := ?_, plWaiter := ?_, plSigFalse := ?_, regionSigFalse := ?_,
      regionUnique := ?_, regionChain := ?_, regionPending := ?_, plBatch := ?_,
      regionBatch := ?_, applySynced := ?_, resolveSynced := ?_, sigSynced := ?_,
      retOkSynced := ?_, appliedSynced := ?_, failedNotApplied := ?_,
      appliedNoWSA := ?_, appliedNoWaiter := ?_, failedNoRegion := ?_,
      failedNoWaiter := ?_, failedSigFalse := ?_ }
  · intro s' hs
    dsimp only at hs ⊢
    exact inv.freshSig s' hs
  · intro s' hs
    dsimp only at hs ⊢
    exact inv.freshFailed s' hs
  · intro s' hs
    dsimp only at hs ⊢
    exact inv.freshApplied s' hs
  · intro t' p' s' h
    dsimp only at h ⊢
    rcases upd_cases h with ⟨_, hval⟩ | ⟨_, hold⟩
    · exact TState.noConfusion hval
    · exact inv.waiterLt t' p' s' hold
  · intro t' s' h
    dsimp only at h ⊢
    by_cases ht' : t' = t
    · subst ht'; rw [upd_self] at h
      exact absurd h (by simp [TState.ioSig])
    · rw [upd_ne _ _ _ _ ht'] at h
      exact inv.regionLt t' s' h
  · intro p' h
    dsimp only at h ⊢
    exact inv.dbPendingLt p' h
  · intro ws' s' h
    dsimp only at h ⊢
    exact inv.dbLeaderLt ws' s' h
  · intro t' p' s' h
    dsimp only at h ⊢
    rcases upd_cases h with ⟨_, hval⟩ | ⟨_, hold⟩
    · exact TState.noConfusion hval
    · exact inv.waiterDb t' p' s' hold
  · intro t' t'' p' p'' s' s'' h h'
    dsimp only at h h'
    rcases upd_cases h with ⟨_, hval⟩ | ⟨_, hold⟩
    · exact TState.noConfusion hval
    · rcases upd_cases h' with ⟨_, hval'⟩ | ⟨_, hold'⟩
      · exact TState.noConfusion hval'
      · exact inv.waiterUnique t' t'' p' p'' s' s'' hold hold'
  · intro ws' s' h
    dsimp only at h ⊢
    obtain ⟨tw, pw, hw⟩ := inv.plWaiter ws' s' h
    have htw : tw ≠ t := by
      intro hh
      rw [hh, ht] at hw
      exact TState.noConfusion hw
    refine ⟨tw, pw, ?_⟩
    rw [upd_ne _ _ _ _ htw]
    exact hw
  · intro ws' s' h
    dsimp only at h ⊢
    exact inv.plSigFalse ws' s' h
  · intro t' s' h
    dsimp only at h ⊢
    by_cases ht' : t' = t
    · subst ht'; rw [upd_self] at h
      exact absurd h (by simp [TState.ioSig])
    · rw [upd_ne _ _ _ _ ht'] at h
      exact inv.regionSigFalse t' s' h
  · intro t' t'' s' s'' h h'
    dsimp only at h h'
    by_cases h1 : t' = t
    · subst h1; rw [upd_self] at h
      exact absurd h (by simp [TState.ioSig])
    · rw [upd_ne _ _ _ _ h1] at h
      by_cases h2 : t'' = t
      · subst h2; rw [upd_self] at h'
        exact absurd h' (by simp [TState.ioSig])
      · rw [upd_ne _ _ _ _ h2] at h'
        exact inv.regionUnique t' t'' s' s'' h h'
  · intro t' s' t'' p'' s'' hio hwv
    dsimp only at hio hwv
    rcases upd_cases hwv with ⟨_, hval⟩ | ⟨_, hold⟩
    · exact TState.noConfusion hval
    · by_cases ht' : t' = t
      · subst ht'; rw [upd_self] at hio
        exact absurd hio (by simp [TState.ioSig])
      · rw [upd_ne _ _ _ _ ht'] at hio
        exact inv.regionChain t' s' t'' p'' s'' hio hold
  · intro t' s' p' hio hp
    dsimp only at hio hp
    by_cases ht' : t' = t
    · subst ht'; rw [upd_self] at hio
      exact absurd hio (by simp [TState.ioSig])
    · rw [upd_ne _ _ _ _ ht'] at hio
      exact inv.regionPending t' s' p' hio hp
  · intro ws' s' h
    dsimp only at h ⊢
    exact inv.plBatch ws' s' h
  · intro t' s' ws' h
    dsimp only at h ⊢
    rcases h with h | h | h
    · rcases upd_cases h with ⟨_, hval⟩ | ⟨_, hold⟩
      · exact TState.noConfusion hval
      · exact inv.regionBatch t' s' ws' (Or.inl hold)
    · rcases upd_cases h with ⟨_, hval⟩ | ⟨_, hold⟩
      · exact TState.noConfusion hval
      · exact inv.regionBatch t' s' ws' (Or.inr (Or.inl hold))
    · rcases upd_cases h with ⟨_, hval⟩ | ⟨_, hold⟩
      · exact TState.noConfusion hval
      · exact inv.regionBatch t' s' ws' (Or.inr (Or.inr hold))
  · intro t' s' ws' h
    dsimp only at h ⊢
    rcases upd_cases h with ⟨_, hval⟩ | ⟨_, hold⟩
    · exact TState.noConfusion hval
    · exact inv.applySynced t' s' ws' hold
  · intro t' s' h
    dsimp only at h ⊢
    rcases upd_cases h with ⟨_, hval⟩ | ⟨_, hold⟩
    · exact TState.noConfusion hval
    · exact inv.resolveSynced t' s' hold
  · intro s' h
    dsimp only at h ⊢
    exact inv.sigSynced s' h
  · intro t' s' h
    dsimp only at h ⊢
    rcases upd_cases h with ⟨_, hval⟩ | ⟨_, hold⟩
    · injection hval with h1
      subst h1
      exact hsynced
    · exact inv.retOkSynced t' s' hold
  · intro s' h
    dsimp only at h ⊢
    exact inv.appliedSynced s' h
  · intro s' h
    dsimp only at h ⊢
    exact inv.failedNotApplied s' h
  · intro t' s' ws' h
    dsimp only at h ⊢
    refine ⟨?_, ?_, ?_⟩ <;> intro heq
    · rcases upd_cases heq with ⟨_, hval⟩ | ⟨_, hold⟩
      · exact TState.noConfusion hval
      · exact (inv.appliedNoWSA t' s' ws' h).1 hold
    · rcases upd_cases heq with ⟨_, hval⟩ | ⟨_, hold⟩
      · exact TState.noConfusion hval
      · exact (inv.appliedNoWSA t' s' ws' h).2.1 hold
    · rcases upd_cases heq with ⟨_, hval⟩ | ⟨_, hold⟩
      · exact TState.noConfusion hval
      · exact (inv.appliedNoWSA t' s' ws' h).2.2 hold
  · intro t' p' s' h heq
    dsimp only at h heq
    rcases upd_cases heq with ⟨_, hval⟩ | ⟨_, hold⟩
    · exact TState.noConfusion hval
    · exact inv.appliedNoWaiter t' p' s' h hold
  · intro t' s' h hio
    dsimp only at h hio
    by_cases ht' : t' = t
    · subst ht'; rw [upd_self] at hio
      exact absurd hio (by simp [TState.ioSig])
    · rw [upd_ne _ _ _ _ ht'] at hio
      exact inv.failedNoRegion t' s' h hio
  · intro t' p' s' h heq
    dsimp only at h heq
    rcases upd_cases heq with ⟨_, hval⟩ | ⟨_, hold⟩
    · exact TState.noConfusion hval
    · exact inv.failedNoWaiter t' p' s' h hold
  · intro s' h
    dsimp only at h ⊢
    exact inv.failedSigFalse s' h

theorem inv_step {σ σ' : Sys} {e : Ev} (inv : PipelineInv σ) (h : Step σ e σ') :
    PipelineInv σ' := by
  cases h with
  | elect t c p ht hdb => exact inv_elect σ inv t c p ht hdb
  | join t c ws s ht hdb => exact inv_join σ inv t c ws s ht hdb
  | wake t p s ws ht hsig hdb => exact inv_wake σ inv t p s ws ht hsig hdb
  | writeOk t s ws ht => exact inv_writeOk σ inv t s ws ht
  | writeFail t s ws pre ht hpre => exact inv_writeFail σ inv t s ws pre ht
  | syncOk t s ws ht => exact inv_syncOk σ inv t s ws ht
  | syncFail t s ws ht => exact inv_syncFail σ inv t s ws ht
  | applyBatch t s ws ht => exact inv_applyBatch σ inv t s ws ht
  | resolve t s ht => exact inv_resolve σ inv t s ht
  | followerRet t s ht hsig => exact inv_followerRet σ inv t s ht hsig

theorem reachableFrom_init_inv (σ : Sys) (h : ReachableFrom init σ) : PipelineInv σ := by
  induction h with
  | refl => exact inv_init
  | tail _ hs ih => exact inv_step ih hs

/-- C4: no submit call returns success before its command's batch has
passed `sync_all` successfully, and the index is never updated with a
batch that has not been forced durable.  In every reachable state: a batch
applied to the memtable was synced first, a thread whose `apply_command`
returned `Ok` for a batch had that batch synced first, and a resolved
batch notification implies the batch was synced. -/
theorem c4_sync_precedes_apply_and_ack (σ : Sys) (h : Reachable σ) (t s : Nat) :
    (σ.applied s = true → σ.synced s = true) ∧
    (σ.tstate t = .retOk s → σ.synced s = true) ∧
    (σ.signals s = true → σ.synced s = true) := by
  have inv := reachableFrom_init_inv σ h
  exact ⟨fun hh => inv.appliedSynced s hh,
         fun hh => inv.retOkSynced t s hh,
         fun hh => inv.sigSynced s hh⟩

/-- C5: batch failure is atomic with respect to the index.  In every
reachable state, a batch whose append or sync failed was never applied to
the memtable, and its notification is never resolved, so none of its
commands is visible via `get`. -/
theorem c5_failed_batch_atomic (σ : Sys) (h : Reachable σ) (s : Nat)
    (hf : σ.failed s = true) :
    σ.applied s = false ∧ σ.signals s = false := by
  have inv := reachableFrom_init_inv σ h
  exact ⟨inv.failedNotApplied s hf, inv.failedSigFalse s hf⟩

/-- C6: the leader writes the batch's commands to the journal, and applies
them to the index, in exactly the order they were appended to the batch
(`submitted` records the commands in submission order: the leader's own
command at `elect`, then each follower's at its `join`). -/
theorem c6_batch_in_submission_order (σ σ' : Sys) (e : Ev) (h : Reachable σ)
    (hstep : Step σ e σ') (t s : Nat) :
    (e = .writeOk t s → σ'.log = σ.log ++ encodeBatch (σ.submitted s)) ∧
    (e = .applyBatch t s →
      σ'.memtable = (σ.submitted s).foldl apply_command_to_memtable σ.memtable) := by
  have inv := reachableFrom_init_inv σ h
  constructor
  · intro he
    subst he
    cases hstep
    rename_i ws ht
    have hb := inv.regionBatch t s ws (Or.inl ht)
    dsimp only
    rw [hb]
  · intro he
    subst he
    cases hstep
    rename_i ws ht
    have hb := inv.regionBatch t s ws (Or.inr (Or.inr ht))
    dsimp only
    rw [hb]

/-- C7: at most one thread at a time performs the physical journal
write-plus-sync (the leader's steps e-f), and every newly elected leader
is gated on the in-flight batch's notification: in every reachable state
the I/O region holds at most one thread, and any waiting leader's
previous-batch notification is exactly the in-flight batch's. -/
theorem c7_single_writer_pipelined (σ : Sys) (h : Reachable σ) (t t' s s' p q : Nat) :
    ((σ.tstate t).ioSig = some s → (σ.tstate t').ioSig = some s' → t = t') ∧
    ((σ.tstate t).ioSig = some s → σ.tstate t' = .leaderWait p q → p = s) := by
  have inv := reachableFrom_init_inv σ h
  exact ⟨fun h1 h2 => inv.regionUnique t t' s s' h1 h2,
         fun h1 h2 => inv.regionChain t s t' p q h1 h2⟩

/-! ## A concrete execution

Thread 0 becomes leader of batch 1 with `Set("a","1")`, thread 1 joins
with `Set("b","2")`, the leader wakes (the initial notification is
already set), swaps the state and writes the batch.  From `stepD` the
execution forks: on the success branch the leader syncs, applies and
resolves (`stepG`); on the failure branch `sync_all` fails (`stFail`)
and, as in the source, nobody ever sets the batch notification. -/

def c0 : Command := .Set "a" "1"

def c1 : Command := .Set "b" "2"

def c2 : Command := .Set "c" "3"

def stepA : Sys :=
  { init with
    dbState := .pendingLeader [c0] init.nextSig
    nextSig := init.nextSig + 1
    tstate := upd init.tstate 0 (.leaderWait 0 init.nextSig)
    submitted := upd init.submitted init.nextSig [c0] }

def stepB : Sys :=
  { stepA with
    dbState := .pendingLeader ([c0] ++ [c1]) 1
    tstate := upd stepA.tstate 1 (.followerWait 1)
    submitted := upd stepA.submitted 1 (stepA.submitted 1 ++ [c1]) }

def stepC : Sys :=
  { stepB with
    dbState := .pending 1
    tstate := upd stepB.tstate 0 (.leaderWrite 1 ([c0] ++ [c1])) }

def stepD : Sys :=
  { stepC with
    log := stepC.log ++ encodeBatch ([c0] ++ [c1])
    tstate := upd stepC.tstate 0 (.leaderSync 1 ([c0] ++ [c1])) }

def stepE : Sys :=
  { stepD with
    tstate := upd stepD.tstate 0 (.leaderApply 1 ([c0] ++ [c1]))
    synced := upd stepD.synced 1 true }

def stepF : Sys :=
  { stepE with
    memtable := ([c0] ++ [c1]).foldl apply_command_to_memtable stepE.memtable
    tstate := upd stepE.tstate 0 (.leaderResolve 1)
    applied := upd stepE.applied 1 true }

def stepG : Sys :=
  { stepF with
    signals := upd stepF.signals 1 true
    tstate := upd stepF.tstate 0 (.retOk 1) }

def stFail : Sys :=
  { stepD with
    tstate := upd stepD.tstate 0 (.retErr 1)
    failed := upd stepD.failed 1 true }

def stepH : Sys :=
  { stepC with
    dbState := .pendingLeader [c2] stepC.nextSig
    nextSig := stepC.nextSig + 1
    tstate := upd stepC.tstate 2 (.leaderWait 1 stepC.nextSig)
    submitted := upd stepC.submitted stepC.nextSig [c2] }

theorem reach_stepA : Reachable stepA :=
  ReachableFrom.tail (ReachableFrom.refl init) (Step.elect init 0 c0 0 rfl rfl)

theorem reach_stepB : Reachable stepB :=
  ReachableFrom.tail reach_stepA (Step.join stepA 1 c1 [c0] 1 rfl rfl)

theorem reach_stepC : Reachable stepC :=
  ReachableFrom.tail reach_stepB (Step.wake stepB 0 0 1 ([c0] ++ [c1]) rfl rfl rfl)

theorem reach_stepD : Reachable stepD :=
  ReachableFrom.tail reach_stepC (Step.writeOk stepC 0 1 ([c0] ++ [c1]) rfl)

theorem reach_stepE : Reachable stepE :=
  ReachableFrom.tail reach_stepD (Step.syncOk stepD 0 1 ([c0] ++ [c1]) rfl)

theorem reach_stepF : Reachable stepF :=
  ReachableFrom.tail reach_stepE (Step.applyBatch stepE 0 1 ([c0] ++ [c1]) rfl)

theorem reach_stepG : Reachable stepG :=
  ReachableFrom.tail reach_stepF (Step.resolve stepF 0 1 rfl)

theorem reach_stFail : Reachable stFail :=
  ReachableFrom.tail reach_stepD (Step.syncFail stepD 0 1 ([c0] ++ [c1]) rfl)

theorem reach_stepH : Reachable stepH :=
  ReachableFrom.tail reach_stepC (Step.elect stepC 2 c2 1 rfl rfl)

/-! ## The stranded-follower bug (claim C1)

In the source, a leader whose `write_all` or `sync_all` fails returns the
error with `?` and never executes lines 145-146, so the batch notification
stays unset forever.  `StuckInv` states that batch 1's notification is
unresolved, no thread can ever resolve it, and thread 1 is still blocked
in `wait_for`; it is preserved by every step of the system. -/

def StuckInv (σ : Sys) : Prop :=
  σ.signals 1 = false ∧
  σ.tstate 1 = .followerWait 1 ∧
  (∀ t, (σ.tstate t).ioSig ≠ some 1) ∧
  (∀ t p, σ.tstate t ≠ .leaderWait p 1) ∧
  2 ≤ σ.nextSig

theorem stFail_tstate_other (t : Nat) (h0 : t ≠ 0) (h1 : t ≠ 1) :
    stFail.tstate t = .idle := by
  show upd stepD.tstate 0 (.retErr 1) t = .idle
  rw [upd_ne _ _ _ _ h0]
  show upd stepC.tstate 0 (.leaderSync 1 ([c0] ++ [c1])) t = .idle
  rw [upd_ne _ _ _ _ h0]
  show upd stepB.tstate 0 (.leaderWrite 1 ([c0] ++ [c1])) t = .idle
  rw [upd_ne _ _ _ _ h0]
  show upd stepA.tstate 1 (.followerWait 1) t = .idle
  rw [upd_ne _ _ _ _ h1]
  show upd init.tstate 0 (.leaderWait 0 init.nextSig) t = .idle
  rw [upd_ne _ _ _ _ h0]
  rfl

theorem stuckInv_stFail : StuckInv stFail := by
  refine ⟨rfl, rfl, ?_, ?_, Nat.le_refl 2⟩
  · intro t
    by_cases h0 : t = 0
    · subst h0
      intro hco
      exact Option.noConfusion hco
    · by_cases h1 : t = 1
      · subst h1
        intro hco
        exact Option.noConfusion hco
      · intro hco
        rw [stFail_tstate_other t h0 h1] at hco
        exact Option.noConfusion hco
  · intro t p
    by_cases h0 : t = 0
    · subst h0
      intro heq
      exact TState.noConfusion heq
    · by_cases h1 : t = 1
      · subst h1
        intro heq
        exact TState.noConfusion heq
      · intro heq
        rw [stFail_tstate_other t h0 h1] at heq
        exact TState.noConfusion heq

theorem stuckInv_step {σ σ' : Sys} {e : Ev} (hs : StuckInv σ) (h : Step σ e σ') :
    StuckInv σ' := by
  obtain ⟨hs1, hf, hnr, hnw, hn2⟩ := hs
  cases h with
  | elect t c p ht hdb =>
    have ht1 : t ≠ 1 := by
      intro hh
      rw [hh, hf] at ht
      exact TState.noConfusion ht
    refine ⟨hs1, ?_, ?_, ?_, ?_⟩
    · dsimp only
      rw [upd_ne _ _ _ _ (fun hh => ht1 hh.symm)]
      exact hf
    · intro t'
      dsimp only
      by_cases h' : t' = t
      · subst h'; rw [upd_self]
        intro hco
        exact Option.noConfusion hco
      · rw [upd_ne _ _ _ _ h']
        exact hnr t'
    · intro t' p'
      dsimp only
      by_cases h' : t' = t
      · subst h'; rw [upd_self]
        intro heq
        injection heq with h1 h2
        omega
      · rw [upd_ne _ _ _ _ h']
        exact hnw t' p'
    · dsimp only
      omega
  | join t c ws s ht hdb =>
    have ht1 : t ≠ 1 := by
      intro hh
      rw [hh, hf] at ht
      exact TState.noConfusion ht
    refine ⟨hs1, ?_, ?_, ?_, hn2⟩
    · dsimp only
      rw [upd_ne _ _ _ _ (fun hh => ht1 hh.symm)]
      exact hf
    · intro t'
      dsimp only
      by_cases h' : t' = t
      · subst h'; rw [upd_self]
        intro hco
        exact Option.noConfusion hco
      · rw [upd_ne _ _ _ _ h']
        exact hnr t'
    · intro t' p'
      dsimp only
      by_cases h' : t' = t
      · subst h'; rw [upd_self]
        intro heq
        exact TState.noConfusion heq
      · rw [upd_ne _ _ _ _ h']
        exact hnw t' p'
  | wake t p s ws ht hsig hdb =>
    have ht1 : t ≠ 1 := by
      intro hh
      rw [hh, hf] at ht
      exact TState.noConfusion ht
    have hs_ne : s ≠ 1 := by
      intro hh
      rw [hh] at ht
      exact hnw t p ht
    refine ⟨hs1, ?_, ?_, ?_, hn2⟩
    · dsimp only
      rw [upd_ne _ _ _ _ (fun hh => ht1 hh.symm)]
      exact hf
    · intro t'
      dsimp only
      by_cases h' : t' = t
      · subst h'; rw [upd_self]
        intro hco
        simp only [TState.ioSig, Option.some.injEq] at hco
        exact hs_ne hco
      · rw [upd_ne _ _ _ _ h']
        exact hnr t'
    · intro t' p'
      dsimp only
      by_cases h' : t' = t
      · subst h'; rw [upd_self]
        intro heq
        exact TState.noConfusion heq
      · rw [upd_ne _ _ _ _ h']
        exact hnw t' p'
  | writeOk t s ws ht =>
    have ht1 : t ≠ 1 := by
      intro hh
      rw [hh, hf] at ht
      exact TState.noConfusion ht
    have hs_ne : s ≠ 1 := by
      intro hh
      exact hnr t (by rw [ht, hh]; rfl)
    refine ⟨hs1, ?_, ?_, ?_, hn2⟩
    · dsimp only
      rw [upd_ne _ _ _ _ (fun hh => ht1 hh.symm)]
      exact hf
    · intro t'
      dsimp only
      by_cases h' : t' = t
      · subst h'; rw [upd_self]
        intro hco
        simp only [TState.ioSig, Option.some.injEq] at hco
        exact hs_ne hco
      · rw [upd_ne _ _ _ _ h']
        exact hnr t'
    · intro t' p'
      dsimp only
      by_cases h' : t' = t
      · subst h'; rw [upd_self]
        intro heq
        exact TState.noConfusion heq
      · rw [upd_ne _ _ _ _ h']
        exact hnw t' p'
  | writeFail t s ws pre ht hpre =>
    have ht1 : t ≠ 1 := by
      intro hh
      rw [hh, hf] at ht
      exact TState.noConfusion ht
    refine ⟨hs1, ?_, ?_, ?_, hn2⟩
    · dsimp only
      rw [upd_ne _ _ _ _ (fun hh => ht1 hh.symm)]
      exact hf
    · intro t'
      dsimp only
      by_cases h' : t' = t
      · subst h'; rw [upd_self]
        intro hco
        exact Option.noConfusion hco
      · rw [upd_ne _ _ _ _ h']
        exact hnr t'
    · intro t' p'
      dsimp only
      by_cases h' : t' = t
      · subst h'; rw [upd_self]
        intro heq
        exact TState.noConfusion heq
      · rw [upd_ne _ _ _ _ h']
        exact hnw t' p'
  | syncOk t s ws ht =>
    have ht1 : t ≠ 1 := by
      intro hh
      rw [hh, hf] at ht
      exact TState.noConfusion ht
    have hs_ne : s ≠ 1 := by
      intro hh
      exact hnr t (by rw [ht, hh]; rfl)
    refine ⟨hs1, ?_, ?_, ?_, hn2⟩
    · dsimp only
      rw [upd_ne _ _ _ _ (fun hh => ht1 hh.symm)]
      exact hf
    · intro t'
      dsimp only
      by_cases h' : t' = t
      · subst h'; rw [upd_self]
        intro hco
        simp only [TState.ioSig, Option.some.injEq] at hco
        exact hs_ne hco
      · rw [upd_ne _ _ _ _ h']
        exact hnr t'
    · intro t' p'
      dsimp only
      by_cases h' : t' = t
      · subst h'; rw [upd_self]
        intro heq
        exact TState.noConfusion heq
      · rw [upd_ne _ _ _ _ h']
        exact hnw t' p'
  | syncFail t s ws ht =>
    have ht1 : t ≠ 1 := by
      intro hh
      rw [hh, hf] at ht
      exact TState.noConfusion ht
    refine ⟨hs1, ?_, ?_, ?_, hn2⟩
    · dsimp only
      rw [upd_ne _ _ _ _ (fun hh => ht1 hh.symm)]
      exact hf
    · intro t'
      dsimp only
      by_cases h' : t' = t
      · subst h'; rw [upd_self]
        intro hco
        exact Option.noConfusion hco
      · rw [upd_ne _ _ _ _ h']
        exact hnr t'
    · intro t' p'
      dsimp only
      by_cases h' : t' = t
      · subst h'; rw [upd_self]
        intro heq
        exact TState.noConfusion heq
      · rw [upd_ne _ _ _ _ h']
        exact hnw t' p'
  | applyBatch t s ws ht =>
    have ht1 : t ≠ 1 := by
      intro hh
      rw [hh, hf] at ht
      exact TState.noConfusion ht
    have hs_ne : s ≠ 1 := by
      intro hh
      exact hnr t (by rw [ht, hh]; rfl)
    refine ⟨hs1, ?_, ?_, ?_, hn2⟩
    · dsimp only
      rw [upd_ne _ _ _ _ (fun hh => ht1 hh.symm)]
      exact hf
    · intro t'
      dsimp only
      by_cases h' : t' = t
      · subst h'; rw [upd_self]
        intro hco
        simp only [TState.ioSig, Option.some.injEq] at hco
        exact hs_ne hco
      · rw [upd_ne _ _ _ _ h']
        exact hnr t'
    · intro t' p'
      dsimp only
      by_cases h' : t' = t
      · subst h'; rw [upd_self]
        intro heq
        exact TState.noConfusion heq
      · rw [upd_ne _ _ _ _ h']
        exact hnw t' p'
  | resolve t s ht =>
    have ht1 : t ≠ 1 := by
      intro hh
      rw [hh, hf] at ht
      exact TState.noConfusion ht
    have hs_ne : s ≠ 1 := by
      intro hh
      exact hnr t (by rw [ht, hh]; rfl)
    refine ⟨?_, ?_, ?_, ?_, hn2⟩
    · dsimp only
      rw [upd_ne _ _ _ _ (fun hh => hs_ne hh.symm)]
      exact hs1
    · dsimp only
      rw [upd_ne _ _ _ _ (fun hh => ht1 hh.symm)]
      exact hf
    · intro t'
      dsimp only
      by_cases h' : t' = t
      · subst h'; rw [upd_self]
        intro hco
        exact Option.noConfusion hco
      · rw [upd_ne _ _ _ _ h']
        exact hnr t'
    · intro t' p'
      dsimp only
      by_cases h' : t' = t
      · subst h'; rw [upd_self]
        intro heq
        exact TState.noConfusion heq
      · rw [upd_ne _ _ _ _ h']
        exact hnw t' p'
  | followerRet t s ht hsig =>
    have ht1 : t ≠ 1 := by
      intro hh
      rw [hh, hf] at ht
      injection ht with h1
      rw [← h1] at hsig
      rw [hs1] at hsig
      exact Bool.noConfusion hsig
    refine ⟨hs1, ?_, ?_, ?_, hn2⟩
    · dsimp only
      rw [upd_ne _ _ _ _ (fun hh => ht1 hh.symm)]
      exact hf
    · intro t'
      dsimp only
      by_cases h' : t' = t
      · subst h'; rw [upd_self]
        intro hco
        exact Option.noConfusion hco
      · rw [upd_ne _ _ _ _ h']
        exact hnr t'
    · intro t' p'
      dsimp only
      by_cases h' : t' = t
      · subst h'; rw [upd_self]
        intro heq
        exact TState.noConfusion heq
      · rw [upd_ne _ _ _ _ h']
        exact hnw t' p'

theorem stuckInv_reachable (σ' : Sys) (h : ReachableFrom stFail σ') : StuckInv σ' := by
  induction h with
  | refl => exact stuckInv_stFail
  | tail _ hstep ih => exact stuckInv_step ih hstep

/-- C1 (and the code's divergence from it): `stFail` is a reachable state
in which the leader's `sync_all` for batch 1 (commands of threads 0 and 1)
failed and the leader returned the error.  The batch notification is never
resolved and in every state reachable from `stFail` the follower (thread
1) is still blocked in `wait_for` on it: the error is not delivered to the
follower and it stays blocked forever, contrary to the claim. -/
theorem c1_leader_failure_strands_follower :
    Reachable stFail ∧
    stFail.failed 1 = true ∧
    (∀ σ', ReachableFrom stFail σ' →
      σ'.tstate 1 = .followerWait 1 ∧ σ'.signals 1 = false) := by
  refine ⟨reach_stFail, rfl, ?_⟩
  intro σ' h
  have hs := stuckInv_reachable σ' h
  exact ⟨hs.2.1, hs.1⟩

theorem c1_leader_failure_strands_follower_witness :
    stFail.tstate 1 = TState.followerWait 1 ∧ stFail.signals 1 = false :=
  c1_leader_failure_strands_follower.2.2 stFail (ReachableFrom.refl stFail)

theorem c4_sync_precedes_apply_and_ack_witness : stepG.synced 1 = true :=
  (c4_sync_precedes_apply_and_ack stepG reach_stepG 0 1).1 rfl

theorem c5_failed_batch_atomic_witness :
    stFail.applied 1 = false ∧ stFail.signals 1 = false :=
  c5_failed_batch_atomic stFail reach_stFail 1 rfl

theorem c6_batch_in_submission_order_witness :
    stepD.log = stepC.log ++ encodeBatch (stepC.submitted 1) :=
  (c6_batch_in_submission_order stepC stepD (.writeOk 0 1) reach_stepC
    (Step.writeOk stepC 0 1 ([c0] ++ [c1]) rfl) 0 1).1 rfl

theorem c7_single_writer_pipelined_witness : (0 : Nat) = 0 ∧ (1 : Nat) = 1 :=
  ⟨(c7_single_writer_pipelined stepH reach_stepH 0 0 1 1 0 0).1 rfl rfl,
   (c7_single_writer_pipelined stepH reach_stepH 0 2 1 1 1 2).2 rfl rfl⟩
